import Mathlib

/-!
# acme-dns input validation (`validation.go`)

A shallow embedding of the validators of `validation.go` together with the
library functions they call, followed by the properties proved about them.

Conventions of the embedding:

* a Go `string` is the list of its bytes (`GoString`), a byte being a natural
  number below 256; a `rune` (a code point) is a natural number. The theorems
  are proved for all lists of natural numbers, so for every string, valid
  UTF-8 or not;
* functions of the Go standard library (`unicode/utf8`, `strings`, `regexp`)
  and of `github.com/google/uuid` are transcribed under their Go names;
* the case tables of package `unicode` are a parameter of `strings.ToLower`,
  and the theorems about `getValidUsername` hold for every table;
* masks and shifts of the UTF-8 coder are written with `%`, `/` and `*`.
-/

namespace AcmeDns

/-! ## Strings, bytes and runes -/

/-- A Go string: the sequence of its bytes. -/
abbrev GoString := List Nat

/-- Go `utf8.RuneError`, the replacement character. -/
def RuneError : Nat := 0xFFFD

/-- Bytes below `utf8.RuneSelf` are single-byte runes. -/
def RuneSelf : Nat := 0x80

/-- The table `first` of `unicode/utf8`, for a lead byte `b ≥ 0x80`: `none` for
an invalid lead byte (`xx`), otherwise the sequence length and the accepted
range of the second byte. -/
def first (b : Nat) : Option (Nat × Nat × Nat) :=
  if b < 0xC2 then none
  else if b ≤ 0xDF then some (2, 0x80, 0xBF)
  else if b = 0xE0 then some (3, 0xA0, 0xBF)
  else if b ≤ 0xEC then some (3, 0x80, 0xBF)
  else if b = 0xED then some (3, 0x80, 0x9F)
  else if b ≤ 0xEF then some (3, 0x80, 0xBF)
  else if b = 0xF0 then some (4, 0x90, 0xBF)
  else if b ≤ 0xF3 then some (4, 0x80, 0xBF)
  else if b = 0xF4 then some (4, 0x80, 0x8F)
  else none

/-- Go `utf8.DecodeRuneInString`: the first rune of `s` and its width in bytes.
An invalid or short encoding yields `(RuneError, 1)`; the empty string
`(RuneError, 0)`. -/
def decodeRune (s : GoString) : Nat × Nat :=
  match s with
  | [] => (RuneError, 0)
  | s0 :: _ =>
    if s0 < RuneSelf then (s0, 1) else
    match first s0 with
    | none => (RuneError, 1)
    | some (sz, lo, hi) =>
      if s.length < sz then (RuneError, 1) else
      let s1 := s.getD 1 0
      if s1 < lo ∨ hi < s1 then (RuneError, 1) else
      if sz ≤ 2 then ((s0 % 32) * 64 + s1 % 64, 2) else
      let s2 := s.getD 2 0
      if s2 < 0x80 ∨ 0xBF < s2 then (RuneError, 1) else
      if sz ≤ 3 then ((s0 % 16) * 4096 + (s1 % 64) * 64 + s2 % 64, 3) else
      let s3 := s.getD 3 0
      if s3 < 0x80 ∨ 0xBF < s3 then (RuneError, 1) else
      ((s0 % 8) * 262144 + (s1 % 64) * 4096 + (s2 % 64) * 64 + s3 % 64, 4)

/-- The runes of a string in order, as a Go `for _, c := range s` loop and the
regexp engine step through them with `utf8.DecodeRuneInString`; the first
argument is the number of bytes that still belong to the rune decoded last. -/
def runesAux : Nat → GoString → List Nat
  | _, [] => []
  | 0, b :: rest =>
    (decodeRune (b :: rest)).1 :: runesAux ((decodeRune (b :: rest)).2 - 1) rest
  | k + 1, _ :: rest => runesAux k rest

/-- The runes of a string. -/
def runes (s : GoString) : List Nat := runesAux 0 s

/-- Go `utf8.RuneCountInString`: the number of runes in `s`, an erroneous or
short encoding counting as a single rune of width one byte. -/
def RuneCountInString (s : GoString) : Nat := (runes s).length

/-- Go `utf8.EncodeRune` (as used by `strings.Builder.WriteRune`): the UTF-8
bytes of a rune; surrogates and values above `MaxRune` are written as
`RuneError`. -/
def encodeRune (r : Nat) : GoString :=
  if r ≤ 0x7F then [r]
  else if r ≤ 0x7FF then [0xC0 + r / 64, 0x80 + r % 64]
  else if 0x10FFFF < r ∨ (0xD800 ≤ r ∧ r ≤ 0xDFFF) then [0xEF, 0xBF, 0xBD]
  else if r ≤ 0xFFFF then [0xE0 + r / 4096, 0x80 + r / 64 % 64, 0x80 + r % 64]
  else [0xF0 + r / 262144, 0x80 + r / 4096 % 64, 0x80 + r / 64 % 64, 0x80 + r % 64]

/-- The bytes of a string literal. -/
def str (s : String) : GoString := (s.toList.map fun c => encodeRune c.toNat).flatten

/-! ## Regular expressions (package `regexp`) -/

/-- Syntax of the regular expressions used by the validators. `bol` and `eol`
are `^` and `$` without the multi-line flag: the beginning and the end of the
text. -/
inductive Regexp where
  | noMatch : Regexp
  | emptyMatch : Regexp
  | bol : Regexp
  | eol : Regexp
  | cls : (Nat → Bool) → Regexp
  | cat : Regexp → Regexp → Regexp
  | alt : Regexp → Regexp → Regexp
  | star : Regexp → Regexp

namespace Regexp

/-- The operator `?`: one or zero occurrences. -/
def quest (r : Regexp) : Regexp := alt r emptyMatch

/-- Whether `r` matches the empty string at a position that is at the beginning
of the text iff `st`, and at its end iff `en`. -/
def nullable (st en : Bool) : Regexp → Bool
  | noMatch => false
  | emptyMatch => true
  | bol => st
  | eol => en
  | cls _ => false
  | cat a b => nullable st en a && nullable st en b
  | alt a b => nullable st en a || nullable st en b
  | star _ => true

/-- The derivative of `r` by the rune `c` read at a position that is at the
beginning of the text iff `st`. -/
def deriv (st : Bool) : Regexp → Nat → Regexp
  | noMatch, _ => noMatch
  | emptyMatch, _ => noMatch
  | bol, _ => noMatch
  | eol, _ => noMatch
  | cls p, c => if p c then emptyMatch else noMatch
  | cat a b, c =>
    alt (cat (deriv st a c) b) (if nullable st false a then deriv st b c else noMatch)
  | alt a b, c => alt (deriv st a c) (deriv st b c)
  | star a, c => cat (deriv st a c) (star a)

/-- Whether `r` matches exactly the text `t`, which starts at the beginning of
the whole text iff `st` and runs to its end. -/
def accepts (st : Bool) (r : Regexp) : List Nat → Bool
  | [] => nullable st true r
  | c :: t => accepts false (deriv st r c) t

/-- Any rune at all. -/
def anyRune : Regexp := cls fun _ => true

/-- Go `(*Regexp).MatchString`: whether the text contains any match of `re`,
that is whether `re` matches between any two positions of the text. -/
def MatchString (re : Regexp) (s : GoString) : Bool :=
  accepts true (cat (star anyRune) (cat re (star anyRune))) (runes s)

end Regexp

open Regexp

/-- The class `[a-z0-9]`. -/
def lowerAlnum (c : Nat) : Bool :=
  (0x61 ≤ c && c ≤ 0x7A) || (0x30 ≤ c && c ≤ 0x39)

/-- The class `[a-z0-9-]`. -/
def lowerAlnumHyphen (c : Nat) : Bool :=
  (0x61 ≤ c && c ≤ 0x7A) || (0x30 ≤ c && c ≤ 0x39) || c == 0x2D

/-- The class `[.]`. -/
def isDot (c : Nat) : Bool := c == 0x2E

/-- The sub-expression `[a-z0-9]([a-z0-9-]*[a-z0-9])?`. -/
def labelRe : Regexp :=
  cat (cls lowerAlnum) (quest (cat (star (cls lowerAlnumHyphen)) (cls lowerAlnum)))

/-- The pattern
`^([a-z0-9]([a-z0-9-]*[a-z0-9])?)([.][a-z0-9]([a-z0-9-]*[a-z0-9])?)*$`
of `validSubdomain`. -/
def subdomainRe : Regexp :=
  cat bol (cat labelRe (cat (star (cat (cls isDot) labelRe)) eol))

/-- Go `validSubdomain`: whether the pattern matches the string. -/
def validSubdomain (s : GoString) : Bool :=
  if MatchString subdomainRe s then true else false


/-! ## Semantics of regular expressions -/

namespace Regexp

/-- The relation `Matches r st w en`: the expression `r` matches the piece of text `w`,
a piece that begins at the beginning of the whole text iff `st` and ends at
its end iff `en`. -/
inductive Matches : Regexp → Bool → List Nat → Bool → Prop
  | emptyMatch {st en} : Matches emptyMatch st [] en
  | bol {en} : Matches bol true [] en
  | eol {st} : Matches eol st [] true
  | cls {p c st en} : p c = true → Matches (cls p) st [c] en
  | cat {a b st u v en} : Matches a st u (en && v.isEmpty) →
      Matches b (st && u.isEmpty) v en → Matches (cat a b) st (u ++ v) en
  | altL {a b st w en} : Matches a st w en → Matches (alt a b) st w en
  | altR {a b st w en} : Matches b st w en → Matches (alt a b) st w en
  | starNil {a st en} : Matches (star a) st [] en
  | starCons {a st u v en} : u ≠ [] → Matches a st u (en && v.isEmpty) →
      Matches (star a) false v en → Matches (star a) st (u ++ v) en

end Regexp

/-! ## `validTXT` and `validKey` -/

/-- Go `(*Regexp).ReplaceAllString(s, "")` for a pattern of the form `[…]+`, one
class repeated one or more times: every maximal run of runes of the class `p`
is one match and is replaced by the empty string, and the bytes of every other
rune are copied. The first argument counts the bytes that still belong to the
rune decoded last, the second tells whether that rune is being copied. -/
def removeClassRunsAux (p : Nat → Bool) : Nat → Bool → GoString → GoString
  | _, _, [] => []
  | 0, _, b :: rest =>
    if p (decodeRune (b :: rest)).1 then
      removeClassRunsAux p ((decodeRune (b :: rest)).2 - 1) false rest
    else b :: removeClassRunsAux p ((decodeRune (b :: rest)).2 - 1) true rest
  | k + 1, keep, b :: rest =>
    if keep then b :: removeClassRunsAux p k keep rest else removeClassRunsAux p k keep rest

/-- The string `s` with every match of the pattern `[…]+` of class `p` removed. -/
def removeClassRuns (p : Nat → Bool) (s : GoString) : GoString :=
  removeClassRunsAux p 0 true s

/-- The characters `A-Za-z0-9_.-`. -/
def isTXTChar (c : Nat) : Bool :=
  (0x41 ≤ c && c ≤ 0x5A) || (0x61 ≤ c && c ≤ 0x7A) || (0x30 ≤ c && c ≤ 0x39) ||
    c == 0x5F || c == 0x2E || c == 0x2D

/-- The class `[^A-Za-z0-9_.-]` of the pattern compiled in `validTXT`. -/
def notTXTChar (c : Nat) : Bool := !isTXTChar c

/-- Go `validTXT`. -/
def validTXT (s : GoString) : Bool :=
  let sn := removeClassRuns notTXTChar s
  if s ≠ sn then false
  else
    let count := RuneCountInString s
    if (count + 1) % 44 ≠ 0 then false
    else true

/-- The key charset: letters `A-Z`, `a-z`, digits, hyphen and underscore. -/
def isKeyChar (c : Nat) : Bool :=
  (0x41 ≤ c && c ≤ 0x5A) || (0x61 ≤ c && c ≤ 0x7A) || (0x30 ≤ c && c ≤ 0x39) ||
    c == 0x2D || c == 0x5F

/-- Modelled from the spec: `sanitizeString`, which is defined outside
`validation.go`. It strips the characters outside the key charset (letters,
digits, hyphen, underscore) and preserves the others in order. -/
def sanitizeString (s : GoString) : GoString :=
  removeClassRuns (fun c => !isKeyChar c) s

/-- Go `validKey`. -/
def validKey (k : GoString) : Bool :=
  let kn := sanitizeString k
  if RuneCountInString k = 40 ∧ RuneCountInString kn = 40 then true
  else false

/-! ## Package `strings`: `ToLower` -/

/-- Go `unicode.ToLower`. The case tables of package `unicode` are the
parameter `tbl`, standing for `unicode.To(unicode.LowerCase, r)`; they are
consulted only above `unicode.MaxASCII`. -/
def unicodeToLower (tbl : Nat → Nat) (r : Nat) : Nat :=
  if r ≤ 0x7F then
    if 0x41 ≤ r ∧ r ≤ 0x5A then r + (0x61 - 0x41) else r
  else tbl r

/-- The second loop of Go `strings.Map`, entered once the output differs from
the input: every remaining rune is mapped and written to the builder. -/
def mapWriteAux (mapping : Nat → Nat) : Nat → GoString → GoString
  | _, [] => []
  | 0, b :: rest =>
    encodeRune (mapping (decodeRune (b :: rest)).1) ++
      mapWriteAux mapping ((decodeRune (b :: rest)).2 - 1) rest
  | k + 1, _ :: rest => mapWriteAux mapping k rest

/-- The first loop of Go `strings.Map`: it looks for the first rune that the
mapping changes, an invalid byte counting as changed (it is written back as
`RuneError`). The result is `none` when there is no such rune, otherwise the
output from the current position on. -/
def mapScanAux (mapping : Nat → Nat) : Nat → GoString → Option GoString
  | _, [] => none
  | 0, b :: rest =>
    let c := (decodeRune (b :: rest)).1
    let width := (decodeRune (b :: rest)).2
    let r := mapping c
    if r = c ∧ ¬ (c = RuneError ∧ width = 1) then
      (mapScanAux mapping (width - 1) rest).map fun out => b :: out
    else some (encodeRune r ++ mapWriteAux mapping (width - 1) rest)
  | k + 1, b :: rest => (mapScanAux mapping k rest).map fun out => b :: out

/-- Go `strings.Map`, for a mapping that never returns a negative value. -/
def stringsMap (mapping : Nat → Nat) (s : GoString) : GoString :=
  (mapScanAux mapping 0 s).getD s

/-- An ASCII uppercase letter, `'A' <= c && c <= 'Z'`. -/
def isUpperASCII (c : Nat) : Bool := 0x41 ≤ c && c ≤ 0x5A

/-- Go `strings.ToLower`: ASCII strings are lowered byte by byte, all others go
through `strings.Map(unicode.ToLower, s)`. -/
def stringsToLower (tbl : Nat → Nat) (s : GoString) : GoString :=
  let isASCII := s.all fun c => c < RuneSelf
  let hasUpper := s.any isUpperASCII
  if isASCII then
    if !hasUpper then s
    else s.map fun c => if isUpperASCII c then c + (0x61 - 0x41) else c
  else stringsMap (unicodeToLower tbl) s

/-! ## Package `github.com/google/uuid` -/

/-- The type `uuid.UUID`, an array of 16 bytes. -/
abbrev UUID := List Nat

/-- The zero value `uuid.UUID{}`. -/
def zeroUUID : UUID := List.replicate 16 0

/-- The errors that `getValidUsername` can return. -/
inductive GoError where
  /-- The error `errors.New("need lowercase username")` of `getValidUsername`. -/
  | needLowercase : GoError
  /-- The error `invalid urn prefix: %q` of `uuid.Parse`. -/
  | invalidURNPrefix : GoString → GoError
  /-- The error `invalid UUID format` of `uuid.Parse`. -/
  | invalidFormat : GoError
  /-- The error `invalid UUID length: %d` of `uuid.Parse`. -/
  | invalidLength : Nat → GoError
  deriving DecidableEq

/-- The table `xvalues` of package `uuid`: the value of a byte as a hexadecimal
digit of either case, or 255. -/
def xvalues (b : Nat) : Nat :=
  if 0x30 ≤ b ∧ b ≤ 0x39 then b - 0x30
  else if 0x41 ≤ b ∧ b ≤ 0x46 then b - 0x41 + 10
  else if 0x61 ≤ b ∧ b ≤ 0x66 then b - 0x61 + 10
  else 255

/-- The function `xtob` of package `uuid`: two hexadecimal characters to a byte,
`(b1 << 4) | b2` in 8 bits, and whether both were hexadecimal digits. -/
def xtob (x1 x2 : Nat) : Nat × Bool :=
  ((xvalues x1 * 16) % 256 ||| xvalues x2, xvalues x1 != 255 && xvalues x2 != 255)

/-- The offsets of the 16 pairs of digits in the hyphenated form. -/
def hexOffsets : List Nat := [0, 2, 4, 6, 9, 11, 14, 16, 19, 21, 24, 26, 28, 30, 32, 34]

/-- The loop of `uuid.Parse` over the hyphenated form,
`for i, x := range [16]int{0, 2, …}`: it stops at the first pair that is not
hexadecimal and returns the bytes set so far with the error. -/
def parseHexLoop (s : GoString) : List Nat → Nat → UUID → UUID × Option GoError
  | [], _, uuid => (uuid, none)
  | x :: xs, i, uuid =>
    if !(xtob (s.getD x 0) (s.getD (x + 1) 0)).2 then (uuid, some GoError.invalidFormat)
    else parseHexLoop s xs (i + 1) (uuid.set i (xtob (s.getD x 0) (s.getD (x + 1) 0)).1)

/-- The loop of `uuid.Parse` over 32 raw digits, `for i := range uuid`: byte `i`
is assigned before the pair is checked. -/
def parseRawLoop (s : GoString) : List Nat → UUID → UUID × Option GoError
  | [], uuid => (uuid, none)
  | i :: is, uuid =>
    if !(xtob (s.getD (i * 2) 0) (s.getD (i * 2 + 1) 0)).2 then
      (uuid.set i (xtob (s.getD (i * 2) 0) (s.getD (i * 2 + 1) 0)).1,
        some GoError.invalidFormat)
    else parseRawLoop s is (uuid.set i (xtob (s.getD (i * 2) 0) (s.getD (i * 2 + 1) 0)).1)

/-- The tail of `uuid.Parse`, common to the three hyphenated forms: `s` holds at
least 36 bytes and must read `xxxxxxxx-xxxx-xxxx-xxxx-xxxxxxxxxxxx`. -/
def parseHyphenated (s : GoString) (uuid : UUID) : UUID × Option GoError :=
  if s.getD 8 0 ≠ 0x2D ∨ s.getD 13 0 ≠ 0x2D ∨ s.getD 18 0 ≠ 0x2D ∨ s.getD 23 0 ≠ 0x2D then
    (uuid, some GoError.invalidFormat)
  else parseHexLoop s hexOffsets 0 uuid

/-- The comparison of the first nine bytes with `urn:uuid:` in `uuid.Parse`,
which ignores case. No letter of this prefix has a case variant outside ASCII,
so the comparison is that of the bytes with their ASCII letters lowered. -/
def hasURNPrefix (s : GoString) : Bool :=
  ((s.take 9).map fun c => if isUpperASCII c then c + (0x61 - 0x41) else c) ==
    [0x75, 0x72, 0x6E, 0x3A, 0x75, 0x75, 0x69, 0x64, 0x3A]

/-- The function `uuid.Parse` of `github.com/google/uuid`. It decodes four
forms, told apart by the length of `s` in bytes: the 36-byte hyphenated form,
the same after `urn:uuid:`, the same between two further bytes (which are not
examined), and 32 hexadecimal digits. On an error the bytes decoded so far are
returned with it. -/
def Parse (s : GoString) : UUID × Option GoError :=
  let uuid : UUID := zeroUUID
  if s.length = 36 then parseHyphenated s uuid
  else if s.length = 36 + 9 then
    if !hasURNPrefix s then (uuid, some (GoError.invalidURNPrefix (s.take 9)))
    else parseHyphenated (s.drop 9) uuid
  else if s.length = 36 + 2 then parseHyphenated (s.drop 1) uuid
  else if s.length = 32 then parseRawLoop s (List.range 16) uuid
  else (uuid, some (GoError.invalidLength s.length))

/-- The digits `hextable` of package `encoding/hex`, `"0123456789abcdef"`. -/
def hextable : List Nat :=
  [0x30, 0x31, 0x32, 0x33, 0x34, 0x35, 0x36, 0x37, 0x38, 0x39,
   0x61, 0x62, 0x63, 0x64, 0x65, 0x66]

/-- Go `hex.Encode`: two lowercase digits per byte, `hextable[v>>4]` and
`hextable[v&0x0f]`. -/
def hexEncode : List Nat → GoString
  | [] => []
  | v :: vs => hextable.getD (v / 16) 0 :: hextable.getD (v % 16) 0 :: hexEncode vs

/-- The method `String` of `uuid.UUID`: the canonical form
`xxxxxxxx-xxxx-xxxx-xxxx-xxxxxxxxxxxx` in lowercase. -/
def UUIDString (uuid : UUID) : GoString :=
  hexEncode (uuid.take 4) ++ [0x2D] ++ hexEncode ((uuid.drop 4).take 2) ++ [0x2D] ++
    hexEncode ((uuid.drop 6).take 2) ++ [0x2D] ++ hexEncode ((uuid.drop 8).take 2) ++ [0x2D] ++
    hexEncode (uuid.drop 10)

/-! ## `getValidUsername` -/

/-- Go `getValidUsername`. -/
def getValidUsername (tbl : Nat → Nat) (u : GoString) : UUID × Option GoError :=
  if stringsToLower tbl u ≠ u then (zeroUUID, some GoError.needLowercase)
  else
    if (Parse u).2 ≠ none then (zeroUUID, (Parse u).2)
    else ((Parse u).1, none)

/-! ## Vocabulary of the specification -/

/-- A label as the specification words it: non-empty, made only of characters
of `[a-z0-9-]`, neither beginning nor ending with `-`. -/
def IsLabel (l : GoString) : Prop :=
  l ≠ [] ∧ (∀ c ∈ l, lowerAlnumHyphen c = true) ∧
    l.head? ≠ some 0x2D ∧ l.getLast? ≠ some 0x2D

instance instDecidableIsLabel (l : GoString) : Decidable (IsLabel l) := by
  unfold IsLabel; infer_instance

/-- A non-empty sequence of labels joined by single `.` characters. -/
def IsLabelSequence (s : GoString) : Prop :=
  ∃ ls : List GoString, ls ≠ [] ∧ (∀ l ∈ ls, IsLabel l) ∧ s = List.intercalate [0x2E] ls

/-- A lowercase hexadecimal digit, `[0-9a-f]`. -/
def isLowerHex (c : Nat) : Bool :=
  (0x30 ≤ c && c ≤ 0x39) || (0x61 ≤ c && c ≤ 0x66)

/-- The canonical text form of a UUID: 36 characters, lowercase hexadecimal
digits in groups of 8-4-4-4-12 separated by hyphens. -/
def IsCanonicalUUID (s : GoString) : Prop :=
  s.length = 36 ∧ ∀ i < 36,
    if i = 8 ∨ i = 13 ∨ i = 18 ∨ i = 23 then s.getD i 0 = 0x2D
    else isLowerHex (s.getD i 0) = true

instance instDecidableIsCanonicalUUID (s : GoString) : Decidable (IsCanonicalUUID s) := by
  unfold IsCanonicalUUID; infer_instance

/-- The bytes of the prefix `urn:uuid:`. -/
def urnPrefix : GoString := [0x75, 0x72, 0x6E, 0x3A, 0x75, 0x75, 0x69, 0x64, 0x3A]

/-- The texts that `uuid.Parse` decodes to the value `v` when they hold no
uppercase digit: the canonical rendering, the same after `urn:uuid:`, the same
between two further bytes, and the 32 digits without hyphens. -/
def IsAcceptedForm (s : GoString) (v : UUID) : Prop :=
  s = UUIDString v ∨ s = urnPrefix ++ UUIDString v ∨
    (∃ a b, s = a :: (UUIDString v ++ [b])) ∨ s = hexEncode v

/-- A case table without any mapping, used to evaluate `getValidUsername` on
ASCII strings, for which `strings.ToLower` never consults the table. -/
def noCaseMapping : Nat → Nat := fun r => r

/-- One or more groups of exactly 43 characters, consecutive groups separated
by a single dot, as the comment in `validTXT` words the expected payload. -/
def IsGroupSequence (s : GoString) : Prop :=
  ∃ gs : List GoString, gs ≠ [] ∧ (∀ g ∈ gs, RuneCountInString g = 43) ∧
    s = List.intercalate [0x2E] gs

/-- The function `validSubdomain` with the fallback that is commented out in the
source put back: a string that the pattern does not match is still accepted
when `uuid.Parse` returns no error. -/
def validSubdomainWithFallback (s : GoString) : Bool :=
  if MatchString subdomainRe s then true
  else if (Parse s).2 = none then true
  else false

/-- Modelled from the spec: the method `ValidEntries` of `cidrslice`, declared
outside `validation.go`. It goes through the entries in order and keeps those
that parse as an address plus prefix length in CIDR notation, dropping the
others without raising an error. The parser of CIDR notation of the standard
library is the parameter `parses`, telling whether it returns no error. -/
def ValidEntries (parses : GoString → Bool) (c : List GoString) : List GoString :=
  c.foldl (fun valid v => if parses v then valid ++ [v] else valid) []

/-! ## Package `golang.org/x/crypto/bcrypt` and `correctPassword`

The functions of the package are transcribed with the encryption itself, the
Blowfish key schedule and rounds, as a parameter `cipher`. An index or a slice
bound outside its range makes a Go program panic: the functions that index
their argument return an `Option`, `none` standing for a panic. -/

/-- The errors of `bcrypt.CompareHashAndPassword`. -/
inductive BcryptError where
  /-- The error `ErrHashTooShort`. -/
  | hashTooShort : BcryptError
  /-- The error `InvalidHashPrefixError`. -/
  | invalidHashPrefix : Nat → BcryptError
  /-- The error `HashVersionTooNewError`. -/
  | hashVersionTooNew : Nat → BcryptError
  /-- The syntax error of `strconv.Atoi` on the cost. -/
  | costSyntax : BcryptError
  /-- The error `InvalidCostError`. -/
  | invalidCost : Int → BcryptError
  /-- An error of the cipher set-up, as for a salt that does not decode. -/
  | cipherSetup : BcryptError
  /-- The error `ErrMismatchedHashAndPassword`. -/
  | mismatchedHashAndPassword : BcryptError
  deriving DecidableEq

/-- The type `hashed` of the package. -/
structure Hashed where
  /-- The encoded hash, the bytes after the salt. -/
  hash : GoString
  /-- The encoded salt, 22 bytes. -/
  salt : GoString
  /-- The cost, between 4 and 31. -/
  cost : Nat
  /-- The major version byte. -/
  major : Nat
  /-- The minor version byte, or 0. -/
  minor : Nat

/-- The result of a function that can fail with an error. -/
abbrev Result (α : Type) := Except BcryptError α

/-- The slice `s[n:]`, which panics when `n` exceeds the length. -/
def sliceFrom (s : GoString) (n : Nat) : Option GoString :=
  if n ≤ s.length then some (s.drop n) else none

/-- The slice `s[:n]`, which panics when `n` exceeds the length. -/
def sliceTo (s : GoString) (n : Nat) : Option GoString :=
  if n ≤ s.length then some (s.take n) else none

/-- The method `decodeVersion`: the number of bytes read, the major and the
minor version. The byte after the version is not examined. -/
def decodeVersion (sbytes : GoString) : Option (Result (Nat × Nat × Nat)) :=
  match sbytes[0]? with
  | none => none
  | some b0 =>
    if b0 ≠ 0x24 then some (Except.error (BcryptError.invalidHashPrefix b0))
    else
      match sbytes[1]? with
      | none => none
      | some b1 =>
        if 0x32 < b1 then some (Except.error (BcryptError.hashVersionTooNew b1))
        else
          match sbytes[2]? with
          | none => none
          | some b2 =>
            if b2 ≠ 0x24 then some (Except.ok (4, b1, b2))
            else some (Except.ok (3, b1, 0))

/-- The loop of the fast path of `strconv.Atoi` over the digits. -/
def atoiDigits : GoString → Nat → Option Nat
  | [], n => some n
  | ch :: rest, n =>
    if ch < 0x30 ∨ 0x39 < ch then none
    else atoiDigits rest (n * 10 + (ch - 0x30))

/-- Go `strconv.Atoi` on a string of 1 to 18 bytes, its fast path: an optional
sign and decimal digits; `none` is a syntax error. -/
def Atoi (s : GoString) : Option Int :=
  match s with
  | [] => none
  | c :: rest =>
    if c = 0x2D ∨ c = 0x2B then
      if rest.length < 1 then none
      else
        match atoiDigits rest 0 with
        | none => none
        | some n => if c = 0x2D then some (-(n : Int)) else some (n : Int)
    else
      match atoiDigits (c :: rest) 0 with
      | none => none
      | some n => some (n : Int)

/-- The method `decodeCost`: the number of bytes read, always 3, and the cost.
The byte after the two cost characters is not examined. -/
def decodeCost (sbytes : GoString) : Option (Result (Nat × Nat)) :=
  match sliceTo sbytes 2 with
  | none => none
  | some digits =>
    match Atoi digits with
    | none => some (Except.error BcryptError.costSyntax)
    | some cost =>
      if cost < 4 ∨ 31 < cost then some (Except.error (BcryptError.invalidCost cost))
      else some (Except.ok (3, cost.toNat))

/-- The function `newFromHash`. -/
def newFromHash (hashedSecret : GoString) : Option (Result Hashed) :=
  if hashedSecret.length < 59 then some (Except.error BcryptError.hashTooShort)
  else
    match decodeVersion hashedSecret with
    | none => none
    | some (Except.error e) => some (Except.error e)
    | some (Except.ok (n, major, minor)) =>
      match sliceFrom hashedSecret n with
      | none => none
      | some afterVersion =>
        match decodeCost afterVersion with
        | none => none
        | some (Except.error e) => some (Except.error e)
        | some (Except.ok (n2, cost)) =>
          match sliceFrom afterVersion n2 with
          | none => none
          | some afterCost =>
            match sliceTo afterCost 22, sliceFrom afterCost 22 with
            | some salt, some hash =>
              some (Except.ok { hash := hash, salt := salt, cost := cost,
                                major := major, minor := minor })
            | _, _ => none

/-- Go `copy(arr[n:], src)`: the bytes of `src` overwrite those of `arr` from
position `n` on, as far as `arr` reaches. -/
def copyAt (arr : List Nat) (n : Nat) (src : List Nat) : List Nat :=
  (List.range arr.length).map fun i =>
    if n ≤ i ∧ i < n + src.length then src.getD (i - n) 0 else arr.getD i 0

/-- Go `fmt.Sprintf("%02d", cost)` for a cost that is not negative. -/
def sprintf02d (cost : Nat) : GoString :=
  if cost < 10 then [0x30, 0x30 + cost]
  else (Nat.toDigits 10 cost).map Char.toNat

/-- The method `Hash` of `hashed`: the version, cost, salt and hash written
into an array of 60 bytes, of which the first 59 or 60 are returned. All the
positions written lie within the array. -/
def Hashed.Hash (p : Hashed) : GoString :=
  let arr := ((List.replicate 60 0).set 0 0x24).set 1 p.major
  let arr2 := if p.minor ≠ 0 then arr.set 2 p.minor else arr
  let n := if p.minor ≠ 0 then 3 else 2
  let arr3 := copyAt (arr2.set n 0x24) (n + 1) (sprintf02d p.cost)
  let arr4 := copyAt (arr3.set (n + 3) 0x24) (n + 4) p.salt
  let arr5 := copyAt arr4 (n + 4 + 22) p.hash
  arr5.take (n + 4 + 22 + 31)

/-- The alphabet of the base64 encoding of bcrypt. -/
def bcryptAlphabet : List Nat :=
  str "./ABCDEFGHIJKLMNOPQRSTUVWXYZabcdefghijklmnopqrstuvwxyz0123456789"

/-- The character `enc.encode[v&0x3F]` of the encoding. -/
def encodeChar (v : Nat) : Nat := bcryptAlphabet.getD (v % 64) 0

/-- Go `(*base64.Encoding).Encode` with the alphabet of bcrypt and the padding
character `=`. -/
def encodeGroups : List Nat → GoString
  | [] => []
  | [a] =>
    [encodeChar (a * 65536 / 262144), encodeChar (a * 65536 / 4096), 0x3D, 0x3D]
  | [a, b] =>
    [encodeChar ((a * 65536 + b * 256) / 262144), encodeChar ((a * 65536 + b * 256) / 4096),
      encodeChar ((a * 65536 + b * 256) / 64), 0x3D]
  | a :: b :: c :: rest =>
    encodeChar ((a * 65536 + b * 256 + c) / 262144) ::
      encodeChar ((a * 65536 + b * 256 + c) / 4096) ::
      encodeChar ((a * 65536 + b * 256 + c) / 64) ::
      encodeChar (a * 65536 + b * 256 + c) :: encodeGroups rest

/-- The function `base64Encode` of the package: the encoding without its
trailing `=` characters. -/
def base64Encode (src : List Nat) : GoString :=
  ((encodeGroups src).reverse.dropWhile fun c => c == 0x3D).reverse

/-- The 24 bytes of the array `cipherData`, out of what the parameter gives. -/
def cipherData (data : List Nat) : List Nat :=
  ((data ++ List.replicate 24 0).take 24).map fun b => b % 256

/-- The function `bcrypt` of the package. The parameter `cipher` stands for the
Blowfish part, `expensiveBlowfishSetup` followed by the 64 encryptions of each
block of the magic text: it gives the 24 bytes of `cipherData`, or `none` when
the set-up returns an error. Of these, 23 bytes are encoded. -/
def bcrypt (cipher : GoString → Nat → GoString → Option (List Nat))
    (password : GoString) (cost : Nat) (salt : GoString) : Result GoString :=
  match cipher password cost salt with
  | none => Except.error BcryptError.cipherSetup
  | some data => Except.ok (base64Encode ((cipherData data).take 23))

/-- Go `subtle.ConstantTimeCompare`: 1 when the two slices are equal. -/
def ConstantTimeCompare (x y : GoString) : Nat :=
  if x.length ≠ y.length then 0
  else if x = y then 1 else 0

/-- The function `bcrypt.CompareHashAndPassword`: `some none` is the result
`nil`, `some (some e)` an error, `none` a panic. -/
def CompareHashAndPassword (cipher : GoString → Nat → GoString → Option (List Nat))
    (hashedPassword password : GoString) : Option (Option BcryptError) :=
  match newFromHash hashedPassword with
  | none => none
  | some (Except.error e) => some (some e)
  | some (Except.ok p) =>
    match bcrypt cipher password p.cost p.salt with
    | Except.error e => some (some e)
    | Except.ok otherHash =>
      if ConstantTimeCompare p.Hash
          (Hashed.Hash { hash := otherHash, salt := p.salt, cost := p.cost,
                         major := p.major, minor := p.minor }) = 1 then
        some none
      else some (some BcryptError.mismatchedHashAndPassword)

/-- Go `correctPassword`; `none` would be a panic. -/
def correctPassword (cipher : GoString → Nat → GoString → Option (List Nat))
    (pw hash : GoString) : Option Bool :=
  match CompareHashAndPassword cipher hash pw with
  | none => none
  | some err => if err = none then some true else some false

/-- The one value of the cipher that the test suite determines. At the
password, cost and salt of the first case of `TestCorrectPassword` it gives the
bytes whose encoding is `VovGjaRelP9tql0IltVUJk778gf.2tu`, the hash part stored
there, against which that case requires the password to verify. At every other
input it gives no value, which `bcrypt` reports as an error. -/
def testVectorCipher : GoString → Nat → GoString → Option (List Nat) :=
  fun password cost salt =>
    if password = str "PUrNTjU24JYNEOCeS2JcjaJGv1sinT80oV9--dpX" ∧ cost = 10 ∧
        salt = str "ldVoGU5yrdlbPzuPUbUfle" then
      some [94, 172, 72, 149, 196, 224, 157, 31, 239, 178, 125, 138, 158, 245, 214,
        46, 111, 125, 250, 40, 64, 226, 252, 0]
    else none

/-- The number of bytes that `decodeVersion` reads from a hash: 4 when the
third byte is a minor version, 3 when it is `$`. -/
def versionLength (hash : GoString) : Nat :=
  if hash.getD 2 0 ≠ 0x24 then 4 else 3

/-- The two cost characters of a hash, those after the version. -/
def costField (hash : GoString) : GoString :=
  (hash.drop (versionLength hash)).take 2

/-- The salt of a hash: the 22 bytes after the version and the three bytes of
the cost. -/
def saltPart (hash : GoString) : GoString :=
  (hash.drop (versionLength hash + 3)).take 22

/-- The hash part of a hash: the bytes after the version, the three bytes of
the cost and the 22 bytes of the salt. -/
def hashPart (hash : GoString) : GoString :=
  hash.drop (versionLength hash + 3 + 22)

/-- The two cost characters `f` that `decodeCost` accepts, with the cost `c`
they give: two decimal digits, or the sign `+` and one decimal digit, since
`strconv.Atoi` reads a sign, with a value from 4 to 31. -/
def IsCostField (f : GoString) (c : Nat) : Prop :=
  4 ≤ c ∧ c ≤ 31 ∧
  ((∃ d1 d2, d1 ≤ 9 ∧ d2 ≤ 9 ∧ f = [0x30 + d1, 0x30 + d2] ∧ c = 10 * d1 + d2) ∨
    (∃ d, d ≤ 9 ∧ f = [0x2B, 0x30 + d] ∧ c = d))

/-- A well-formed bcrypt encoding: `$2$` or `$2a$`, `$2b$`, `$2x$`, `$2y$`, then two
decimal digits giving a cost from 4 to 31, then `$`, then 53 characters of the
alphabet, 22 of salt and 31 of hash, and nothing more. -/
def IsBcryptEncoding (hash : GoString) : Prop :=
  hash.getD 0 0 = 0x24 ∧ hash.getD 1 0 = 0x32 ∧
  (hash.getD 2 0 = 0x24 ∨
    ((hash.getD 2 0 = 0x61 ∨ hash.getD 2 0 = 0x62 ∨ hash.getD 2 0 = 0x78 ∨
      hash.getD 2 0 = 0x79) ∧ hash.getD 3 0 = 0x24)) ∧
  (∃ c, atoiDigits (costField hash) 0 = some c ∧ 4 ≤ c ∧ c ≤ 31) ∧
  (costField hash).length = 2 ∧
  hash.getD (versionLength hash + 2) 0 = 0x24 ∧
  (hash.drop (versionLength hash + 3)).length = 53 ∧
  ∀ c ∈ hash.drop (versionLength hash + 3), c ∈ bcryptAlphabet

/-! # Theorems -/

namespace Regexp

theorem matches_noMatch_iff {st w en} : Matches noMatch st w en ↔ False :=
  ⟨fun h => (by cases h), False.elim⟩

theorem matches_emptyMatch_iff {st w en} : Matches emptyMatch st w en ↔ w = [] :=
  ⟨fun h => (by cases h; rfl), fun h => h ▸ Matches.emptyMatch⟩

theorem matches_bol_iff {st w en} : Matches bol st w en ↔ w = [] ∧ st = true :=
  ⟨fun h => (by cases h; exact ⟨rfl, rfl⟩), fun ⟨h1, h2⟩ => h1 ▸ h2 ▸ Matches.bol⟩

theorem matches_eol_iff {st w en} : Matches eol st w en ↔ w = [] ∧ en = true :=
  ⟨fun h => (by cases h; exact ⟨rfl, rfl⟩), fun ⟨h1, h2⟩ => h1 ▸ h2 ▸ Matches.eol⟩

theorem matches_cls_iff {p st w en} : Matches (cls p) st w en ↔ ∃ c, w = [c] ∧ p c = true :=
  ⟨fun h => (by cases h with | cls hp => exact ⟨_, rfl, hp⟩),
   fun ⟨_, h1, h2⟩ => h1 ▸ Matches.cls h2⟩

theorem matches_cat_iff {a b st w en} : Matches (cat a b) st w en ↔
    ∃ u v, w = u ++ v ∧ Matches a st u (en && v.isEmpty) ∧ Matches b (st && u.isEmpty) v en :=
  ⟨fun h => (by cases h with | cat ha hb => exact ⟨_, _, rfl, ha, hb⟩),
   fun ⟨_, _, h1, h2, h3⟩ => h1 ▸ Matches.cat h2 h3⟩

theorem matches_alt_iff {a b st w en} :
    Matches (alt a b) st w en ↔ Matches a st w en ∨ Matches b st w en :=
  ⟨fun h => by
    cases h with
    | altL h => exact Or.inl h
    | altR h => exact Or.inr h,
   fun h => h.elim Matches.altL Matches.altR⟩

theorem matches_star_iff {a st w en} : Matches (star a) st w en ↔
    w = [] ∨ ∃ u v, u ≠ [] ∧ w = u ++ v ∧ Matches a st u (en && v.isEmpty) ∧
      Matches (star a) false v en :=
  ⟨fun h => by
    cases h with
    | starNil => exact Or.inl rfl
    | starCons hu ha hs => exact Or.inr ⟨_, _, hu, rfl, ha, hs⟩,
   fun h => by
    rcases h with h | ⟨_, _, hu, h1, ha, hs⟩
    · exact h ▸ Matches.starNil
    · exact h1 ▸ Matches.starCons hu ha hs⟩

/-- An expression is nullable exactly when it matches the empty piece. -/
theorem nullable_iff (r : Regexp) (st en : Bool) :
    nullable st en r = true ↔ Matches r st [] en := by
  induction r with
  | noMatch => simp [nullable, matches_noMatch_iff]
  | emptyMatch => simp [nullable, matches_emptyMatch_iff]
  | bol => simp [nullable, matches_bol_iff]
  | eol => simp [nullable, matches_eol_iff]
  | cls p => simp [nullable, matches_cls_iff]
  | cat a b iha ihb =>
    rw [matches_cat_iff]
    simp only [nullable, Bool.and_eq_true, iha, ihb]
    constructor
    · rintro ⟨h1, h2⟩
      exact ⟨[], [], rfl, by simpa using h1, by simpa using h2⟩
    · rintro ⟨u, v, h, h1, h2⟩
      have hu : u = [] := by
        cases u with
        | nil => rfl
        | cons x xs => simp at h
      have hv : v = [] := by
        cases v with
        | nil => rfl
        | cons x xs => simp [hu] at h
      subst hu; subst hv
      exact ⟨by simpa using h1, by simpa using h2⟩
  | alt a b iha ihb => simp [nullable, matches_alt_iff, iha, ihb]
  | star a _ => simp [nullable, Matches.starNil]

/-- The derivative by `c` matches `w` exactly when the expression matches `c :: w`. -/
theorem deriv_iff (r : Regexp) (st : Bool) (c : Nat) :
    ∀ (w : List Nat) (en : Bool), Matches (deriv st r c) false w en ↔ Matches r st (c :: w) en := by
  induction r with
  | noMatch => intro w en; simp [deriv, matches_noMatch_iff]
  | emptyMatch => intro w en; simp [deriv, matches_noMatch_iff, matches_emptyMatch_iff]
  | bol => intro w en; simp [deriv, matches_noMatch_iff, matches_bol_iff]
  | eol => intro w en; simp [deriv, matches_noMatch_iff, matches_eol_iff]
  | cls p =>
    intro w en
    simp only [deriv, matches_cls_iff]
    by_cases hp : p c = true
    · simp only [hp, if_true, matches_emptyMatch_iff]
      constructor
      · intro h; exact ⟨c, by simp [h], hp⟩
      · rintro ⟨d, hd, -⟩
        simp only [List.cons.injEq] at hd
        exact hd.2
    · simp only [hp, Bool.false_eq_true, if_false, matches_noMatch_iff, false_iff]
      rintro ⟨d, hd, hpd⟩
      simp only [List.cons.injEq] at hd
      exact hp (hd.1 ▸ hpd)
  | cat a b iha ihb =>
    intro w en
    simp only [deriv]
    rw [matches_alt_iff, matches_cat_iff, matches_cat_iff]
    constructor
    · rintro (⟨u, v, h, h1, h2⟩ | h)
      · refine ⟨c :: u, v, by simp [h], (iha _ _).1 h1, ?_⟩
        simpa using h2
      · by_cases hn : nullable st false a = true
        · rw [if_pos hn] at h
          refine ⟨[], c :: w, rfl, ?_, ?_⟩
          · simpa using (nullable_iff a st false).1 hn
          · simpa using (ihb _ _).1 h
        · rw [if_neg hn] at h
          exact (matches_noMatch_iff.1 h).elim
    · rintro ⟨u, v, h, h1, h2⟩
      cases u with
      | nil =>
        right
        simp only [List.nil_append] at h
        subst h
        have hn : nullable st false a = true := (nullable_iff a st false).2 (by simpa using h1)
        rw [if_pos hn]
        exact (ihb _ _).2 (by simpa using h2)
      | cons x xs =>
        left
        simp only [List.cons_append, List.cons.injEq] at h
        obtain ⟨hx, hw⟩ := h
        subst hx
        exact ⟨xs, v, hw, (iha _ _).2 h1, by simpa using h2⟩
  | alt a b iha ihb =>
    intro w en
    simp only [deriv]
    rw [matches_alt_iff, matches_alt_iff, iha, ihb]
  | star a iha =>
    intro w en
    simp only [deriv]
    rw [matches_cat_iff, matches_star_iff]
    constructor
    · rintro ⟨u, v, h, h1, h2⟩
      exact Or.inr ⟨c :: u, v, by simp, by simp [h], (iha _ _).1 h1, by simpa using h2⟩
    · rintro (h | ⟨u, v, hu, h, h1, h2⟩)
      · simp at h
      · cases u with
        | nil => exact (hu rfl).elim
        | cons x xs =>
          simp only [List.cons_append, List.cons.injEq] at h
          obtain ⟨hx, hw⟩ := h
          subst hx
          exact ⟨xs, v, hw, (iha _ _).2 h1, by simpa using h2⟩

/-- The matcher decides the relation `Matches` on a text read to its end. -/
theorem accepts_iff (t : List Nat) :
    ∀ (r : Regexp) (st : Bool), accepts st r t = true ↔ Matches r st t true := by
  induction t with
  | nil => intro r st; simp [accepts, nullable_iff]
  | cons c t ih => intro r st; simp [accepts, ih, deriv_iff]

end Regexp


/-! ## UTF-8 decoding of ASCII text -/

theorem decodeRune_ascii (b : Nat) (rest : GoString) (h : b < 0x80) :
    decodeRune (b :: rest) = (b, 1) := by
  simp [decodeRune, RuneSelf, h]

theorem first_spec (b sz lo hi : Nat) (h : first b = some (sz, lo, hi)) :
    hi ≤ 0xBF ∧ 0x80 ≤ lo ∧ ((sz = 2 ∧ 0xC2 ≤ b ∧ b ≤ 0xDF) ∨
    (sz = 3 ∧ ((b = 0xE0 ∧ lo = 0xA0) ∨ (0xE1 ≤ b ∧ b ≤ 0xEF))) ∨
    (sz = 4 ∧ ((b = 0xF0 ∧ lo = 0x90) ∨ (0xF1 ≤ b ∧ b ≤ 0xF4)))) := by
  unfold first at h
  split_ifs at h <;>
    simp only [Option.some.injEq, Prod.mk.injEq, reduceCtorEq] at h <;>
    omega

theorem decodeRune_high (b : Nat) (rest : GoString) (h : 0x80 ≤ b) :
    0x80 ≤ (decodeRune (b :: rest)).1 := by
  have hb : ¬ b < 0x80 := by omega
  simp only [decodeRune, RuneSelf, hb, if_false]
  cases hf : first b with
  | none => simp [RuneError]
  | some t =>
    obtain ⟨sz, lo, hi⟩ := t
    have hs := first_spec b sz lo hi hf
    dsimp only
    split_ifs <;> dsimp only [RuneError] <;> omega

/-- A string whose runes are all below `0x80` consists of those runes as bytes. -/
theorem runes_eq_self_of_lt (s : GoString) (h : ∀ r ∈ runes s, r < 0x80) : runes s = s := by
  induction s with
  | nil => rfl
  | cons b rest ih =>
    have hb : b < 0x80 := by
      by_contra hb
      have hb2 : 0x80 ≤ b := by omega
      have h1 := decodeRune_high b rest hb2
      have h2 := h (decodeRune (b :: rest)).1 (by simp [runes, runesAux])
      omega
    have hr : runes (b :: rest) = b :: runes rest := by
      simp [runes, runesAux, decodeRune_ascii b rest hb]
    rw [hr] at h ⊢
    rw [ih (fun r hr => h r (List.mem_cons_of_mem _ hr))]

/-- An ASCII string is the list of its own runes. -/
theorem runes_of_ascii (s : GoString) (h : ∀ b ∈ s, b < 0x80) : runes s = s := by
  induction s with
  | nil => rfl
  | cons b rest ih =>
    have hr : runes (b :: rest) = b :: runes rest := by
      simp [runes, runesAux, decodeRune_ascii b rest (h b (List.mem_cons_self _ _))]
    rw [hr, ih (fun x hx => h x (List.mem_cons_of_mem _ hx))]

/-! ## The pattern of `validSubdomain` -/

theorem lowerAlnum_iff (c : Nat) :
    lowerAlnum c = true ↔ lowerAlnumHyphen c = true ∧ c ≠ 0x2D := by
  simp only [lowerAlnum, lowerAlnumHyphen, Bool.or_eq_true, Bool.and_eq_true,
    decide_eq_true_eq, beq_iff_eq]
  omega

theorem lowerAlnumHyphen_lt (c : Nat) (h : lowerAlnumHyphen c = true) : c < 0x80 ∧ c ≠ 0x2E := by
  simp only [lowerAlnumHyphen, Bool.or_eq_true, Bool.and_eq_true,
    decide_eq_true_eq, beq_iff_eq] at h
  omega

/-- A starred class matches exactly the texts made of runes of the class. -/
theorem matches_star_cls_iff (p : Nat → Bool) (w : List Nat) :
    ∀ st en, Matches (star (cls p)) st w en ↔ ∀ c ∈ w, p c = true := by
  induction w with
  | nil => intro st en; simp [Matches.starNil]
  | cons x xs ih =>
    intro st en
    rw [matches_star_iff]
    constructor
    · rintro (h | ⟨u, v, hu, h, h1, h2⟩)
      · simp at h
      · obtain ⟨c, hc, hp⟩ := matches_cls_iff.1 h1
        subst hc
        simp only [List.singleton_append, List.cons.injEq] at h
        obtain ⟨rfl, rfl⟩ := h
        intro d hd
        rcases List.mem_cons.1 hd with rfl | hd
        · exact hp
        · exact (ih _ _).1 h2 d hd
    · intro h
      refine Or.inr ⟨[x], xs, by simp, rfl, matches_cls_iff.2 ⟨x, rfl, h x (by simp)⟩, ?_⟩
      exact (ih _ _).2 (fun c hc => h c (List.mem_cons_of_mem _ hc))

/-- The shape of the texts matched by `[a-z0-9]([a-z0-9-]*[a-z0-9])?`. -/
theorem matches_labelRe_shape (w : List Nat) (st en : Bool) :
    Matches labelRe st w en ↔
      ∃ c, lowerAlnum c = true ∧ (w = [c] ∨ ∃ m d, w = c :: (m ++ [d]) ∧
        (∀ x ∈ m, lowerAlnumHyphen x = true) ∧ lowerAlnum d = true) := by
  unfold labelRe quest
  rw [matches_cat_iff]
  constructor
  · rintro ⟨u, v, h, h1, h2⟩
    obtain ⟨c, rfl, hc⟩ := matches_cls_iff.1 h1
    refine ⟨c, hc, ?_⟩
    rcases matches_alt_iff.1 h2 with h3 | h3
    · obtain ⟨m, e, rfl, h4, h5⟩ := matches_cat_iff.1 h3
      obtain ⟨d, rfl, hd⟩ := matches_cls_iff.1 h5
      exact Or.inr ⟨m, d, by simp [h], (matches_star_cls_iff _ _ _ _).1 h4, hd⟩
    · rw [matches_emptyMatch_iff] at h3
      subst h3
      exact Or.inl (by simp [h])
  · rintro ⟨c, hc, h | ⟨m, d, h, hm, hd⟩⟩
    · exact ⟨[c], [], by simp [h], matches_cls_iff.2 ⟨c, rfl, hc⟩,
        matches_alt_iff.2 (Or.inr Matches.emptyMatch)⟩
    · refine ⟨[c], m ++ [d], by simp [h], matches_cls_iff.2 ⟨c, rfl, hc⟩,
        matches_alt_iff.2 (Or.inl ?_)⟩
      exact matches_cat_iff.2 ⟨m, [d], rfl, (matches_star_cls_iff _ _ _ _).2 hm,
        matches_cls_iff.2 ⟨d, rfl, hd⟩⟩

/-- The label sub-expression matches exactly the labels of the specification. -/
theorem matches_labelRe_iff (w : List Nat) (st en : Bool) :
    Matches labelRe st w en ↔ IsLabel w := by
  rw [matches_labelRe_shape]
  unfold IsLabel
  constructor
  · rintro ⟨c, hc, rfl | ⟨m, d, rfl, hm, hd⟩⟩
    · have h := (lowerAlnum_iff c).1 hc
      refine ⟨by simp, ?_, ?_, ?_⟩
      · intro x hx
        rw [List.mem_singleton.1 hx]; exact h.1
      · simpa using h.2
      · simpa using h.2
    · have h := (lowerAlnum_iff c).1 hc
      have h' := (lowerAlnum_iff d).1 hd
      refine ⟨by simp, ?_, ?_, ?_⟩
      · intro x hx
        simp only [List.mem_cons, List.mem_append, List.mem_singleton, List.not_mem_nil,
          or_false] at hx
        rcases hx with rfl | hx | rfl
        · exact h.1
        · exact hm x hx
        · exact h'.1
      · simpa using h.2
      · rw [← List.cons_append, List.getLast?_append]
        simpa using h'.2
  · rintro ⟨hne, hall, hhead, hlast⟩
    cases w with
    | nil => exact (hne rfl).elim
    | cons c t =>
      have hc : lowerAlnum c = true :=
        (lowerAlnum_iff c).2 ⟨hall c (by simp), by simpa using hhead⟩
      refine ⟨c, hc, ?_⟩
      rcases List.eq_nil_or_concat t with rfl | ⟨m, d, rfl⟩
      · exact Or.inl rfl
      · rw [List.concat_eq_append] at hall hlast ⊢
        refine Or.inr ⟨m, d, rfl, fun x hx => hall x (by simp [hx]), ?_⟩
        refine (lowerAlnum_iff d).2 ⟨hall d (by simp), ?_⟩
        rw [← List.cons_append, List.getLast?_append] at hlast
        simpa using hlast

theorem matches_dotLabel_iff (u : List Nat) (st en : Bool) :
    Matches (cat (cls isDot) labelRe) st u en ↔ ∃ l, IsLabel l ∧ u = 0x2E :: l := by
  rw [matches_cat_iff]
  constructor
  · rintro ⟨a, l, rfl, h1, h2⟩
    obtain ⟨c, rfl, hc⟩ := matches_cls_iff.1 h1
    have hc' : c = 0x2E := by simpa [isDot] using hc
    exact ⟨l, (matches_labelRe_iff _ _ _).1 h2, by simp [hc']⟩
  · rintro ⟨l, hl, rfl⟩
    exact ⟨[0x2E], l, rfl, matches_cls_iff.2 ⟨0x2E, rfl, by simp [isDot]⟩,
      (matches_labelRe_iff _ _ _).2 hl⟩

theorem matches_tail_of_labels (ls : List GoString) (h : ∀ l ∈ ls, IsLabel l) :
    ∀ st en, Matches (star (cat (cls isDot) labelRe)) st
      (ls.map fun l => 0x2E :: l).flatten en := by
  induction ls with
  | nil => intro st en; exact Matches.starNil
  | cons l ls ih =>
    intro st en
    simp only [List.map_cons, List.flatten_cons]
    refine Matches.starCons (by simp) ?_ (ih (fun x hx => h x (List.mem_cons_of_mem _ hx)) _ _)
    exact (matches_dotLabel_iff _ _ _).2 ⟨l, h l (List.mem_cons_self _ _), rfl⟩

theorem labels_of_matches_tail (n : Nat) :
    ∀ (w : List Nat) (st en : Bool), w.length ≤ n →
      Matches (star (cat (cls isDot) labelRe)) st w en →
      ∃ ls : List GoString, (∀ l ∈ ls, IsLabel l) ∧ w = (ls.map fun l => 0x2E :: l).flatten := by
  induction n with
  | zero =>
    intro w st en hw _
    have : w = [] := List.length_eq_zero.1 (by omega)
    exact ⟨[], by simp, by simp [this]⟩
  | succ n ih =>
    intro w st en hw h
    rcases matches_star_iff.1 h with rfl | ⟨u, v, hu, rfl, h1, h2⟩
    · exact ⟨[], by simp, by simp⟩
    · obtain ⟨l, hl, rfl⟩ := (matches_dotLabel_iff _ _ _).1 h1
      have hv : v.length ≤ n := by
        simp only [List.length_append, List.length_cons] at hw
        omega
      obtain ⟨ls, hls, rfl⟩ := ih v false en hv h2
      refine ⟨l :: ls, ?_, by simp⟩
      intro x hx
      rcases List.mem_cons.1 hx with rfl | hx
      · exact hl
      · exact hls x hx

theorem intercalate_dot_cons (l : GoString) (ls : List GoString) :
    List.intercalate [0x2E] (l :: ls) = l ++ (ls.map fun x => 0x2E :: x).flatten := by
  induction ls generalizing l with
  | nil => simp [List.intercalate]
  | cons x xs ih =>
    have h := ih x
    simp only [List.intercalate, List.intersperse, List.flatten_cons, List.map_cons] at h ⊢
    rw [h]
    simp

/-- The texts (sequences of runes) matched by the whole pattern, searched
anywhere in the text as `MatchString` does. -/
theorem accepts_subdomainRe_iff (t : List Nat) :
    accepts true (cat (star anyRune) (cat subdomainRe (star anyRune))) t = true ↔
      IsLabelSequence t := by
  rw [accepts_iff]
  unfold subdomainRe IsLabelSequence
  constructor
  · intro h
    obtain ⟨u, v, rfl, -, h2⟩ := matches_cat_iff.1 h
    obtain ⟨x, y, rfl, h3, -⟩ := matches_cat_iff.1 h2
    obtain ⟨x0, x1, rfl, h4, h5⟩ := matches_cat_iff.1 h3
    obtain ⟨rfl, hst⟩ := matches_bol_iff.1 h4
    obtain ⟨l, r, rfl, h6, h7⟩ := matches_cat_iff.1 h5
    obtain ⟨m, z, rfl, h8, h9⟩ := matches_cat_iff.1 h7
    obtain ⟨rfl, hen⟩ := matches_eol_iff.1 h9
    have hu : u = [] := by simpa using hst
    have hy : y = [] := by simpa using hen
    subst hu; subst hy
    obtain ⟨ls, hls, rfl⟩ := labels_of_matches_tail _ _ _ _ (le_refl _) h8
    have hl := (matches_labelRe_iff _ _ _).1 h6
    refine ⟨l :: ls, by simp, ?_, ?_⟩
    · intro x hx
      rcases List.mem_cons.1 hx with rfl | hx
      · exact hl
      · exact hls x hx
    · rw [intercalate_dot_cons]; simp
  · rintro ⟨ls, hne, hls, rfl⟩
    cases ls with
    | nil => exact (hne rfl).elim
    | cons l ls =>
      rw [intercalate_dot_cons]
      refine matches_cat_iff.2 ⟨[], _, rfl, Matches.starNil, ?_⟩
      refine matches_cat_iff.2 ⟨_, [], (List.append_nil _).symm, ?_, Matches.starNil⟩
      refine matches_cat_iff.2 ⟨[], _, rfl, Matches.bol, ?_⟩
      refine matches_cat_iff.2 ⟨l, _, rfl, ?_, ?_⟩
      · exact (matches_labelRe_iff _ _ _).2 (hls l (List.mem_cons_self _ _))
      · refine matches_cat_iff.2 ⟨_, [], (List.append_nil _).symm, ?_, Matches.eol⟩
        exact matches_tail_of_labels ls (fun x hx => hls x (List.mem_cons_of_mem _ hx)) _ _

theorem isLabelSequence_ascii (t : GoString) (h : IsLabelSequence t) :
    ∀ b ∈ t, lowerAlnumHyphen b = true ∨ b = 0x2E := by
  obtain ⟨ls, -, hls, rfl⟩ := h
  induction ls with
  | nil => simp [List.intercalate]
  | cons l ls ih =>
    intro b hb
    rw [intercalate_dot_cons] at hb
    rcases List.mem_append.1 hb with hb | hb
    · exact Or.inl ((hls l (List.mem_cons_self _ _)).2.1 b hb)
    · simp only [List.mem_flatten, List.mem_map] at hb
      obtain ⟨_, ⟨x, hx, rfl⟩, hb⟩ := hb
      rcases List.mem_cons.1 hb with rfl | hb
      · exact Or.inr rfl
      · exact Or.inl ((hls x (List.mem_cons_of_mem _ hx)).2.1 b hb)

theorem isLabelSequence_lt (t : GoString) (h : IsLabelSequence t) : ∀ b ∈ t, b < 0x80 := by
  intro b hb
  rcases isLabelSequence_ascii t h b hb with h1 | h1
  · exact (lowerAlnumHyphen_lt b h1).1
  · omega

/-- What `validSubdomain` computes: the string, as bytes, is a non-empty
sequence of labels joined by single dots. -/
theorem validSubdomain_iff (s : GoString) : validSubdomain s = true ↔ IsLabelSequence s := by
  unfold validSubdomain MatchString
  simp only [Bool.if_true_right, Bool.or_false, Bool.not_eq_true, ite_eq_left_iff,
    Bool.false_eq_true, imp_false, Bool.not_eq_false]
  rw [accepts_subdomainRe_iff]
  constructor
  · intro h
    have := runes_eq_self_of_lt s (isLabelSequence_lt _ h)
    rwa [this] at h
  · intro h
    rw [runes_of_ascii s (isLabelSequence_lt _ h)]
    exact h
/-! ## Removing the runes of a class -/

theorem removeClassRunsAux_eq_self (p : Nat → Bool) (s : GoString) :
    ∀ k, (∀ r ∈ runesAux k s, p r = false) → removeClassRunsAux p k true s = s := by
  induction s with
  | nil => intro k _; cases k <;> rfl
  | cons b rest ih =>
    intro k h
    cases k with
    | zero =>
      simp only [runesAux, List.mem_cons, forall_eq_or_imp] at h
      simp only [removeClassRunsAux, h.1, Bool.false_eq_true, if_false, ih _ h.2]
    | succ k =>
      simp only [runesAux] at h
      simp only [removeClassRunsAux, if_true, ih _ h]

theorem removeClassRunsAux_length_le (p : Nat → Bool) (s : GoString) :
    ∀ k keep, (removeClassRunsAux p k keep s).length ≤ s.length := by
  induction s with
  | nil => intro k keep; cases k <;> simp [removeClassRunsAux]
  | cons b rest ih =>
    intro k keep
    cases k with
    | zero =>
      simp only [removeClassRunsAux]
      split_ifs
      · exact Nat.le_succ_of_le (ih _ _)
      · simpa using ih _ _
    | succ k =>
      simp only [removeClassRunsAux]
      split_ifs
      · simpa using ih _ _
      · exact Nat.le_succ_of_le (ih _ _)

theorem removeClassRunsAux_length_lt (p : Nat → Bool) (s : GoString) :
    ∀ k keep, (∃ r ∈ runesAux k s, p r = true) →
      (removeClassRunsAux p k keep s).length < s.length := by
  induction s with
  | nil => intro k keep h; cases k <;> simp [runesAux] at h
  | cons b rest ih =>
    intro k keep h
    cases k with
    | zero =>
      simp only [runesAux, List.mem_cons, exists_eq_or_imp] at h
      simp only [removeClassRunsAux]
      split_ifs with hp
      · exact Nat.lt_succ_of_le (removeClassRunsAux_length_le _ _ _ _)
      · rcases h with h | h
        · exact absurd h hp
        · simpa using ih _ _ h
    | succ k =>
      simp only [runesAux] at h
      simp only [removeClassRunsAux]
      split_ifs
      · simpa using ih _ _ h
      · exact Nat.lt_succ_of_lt (ih _ _ h)

/-- Removing the matches leaves the string unchanged exactly when no rune of
the string belongs to the class. -/
theorem removeClassRuns_eq_self_iff (p : Nat → Bool) (s : GoString) :
    s = removeClassRuns p s ↔ ∀ r ∈ runes s, p r = false := by
  constructor
  · intro h r hr
    by_contra hp
    have := removeClassRunsAux_length_lt p s 0 true ⟨r, hr, by simpa using hp⟩
    rw [← removeClassRuns, ← h] at this
    exact lt_irrefl _ this
  · intro h
    exact (removeClassRunsAux_eq_self p s 0 h).symm

/-- When every rune outside the class is ASCII, what remains is the list of the
runes outside the class. -/
theorem removeClassRunsAux_eq_filter (p : Nat → Bool) (hp : ∀ r, p r = false → r < 0x80)
    (s : GoString) : ∀ k keep, (k = 0 ∨ keep = false) →
      removeClassRunsAux p k keep s = (runesAux k s).filter fun r => !p r := by
  induction s with
  | nil => intro k keep _; cases k <;> rfl
  | cons b rest ih =>
    intro k keep hk
    cases k with
    | zero =>
      simp only [removeClassRunsAux, runesAux]
      by_cases h : p (decodeRune (b :: rest)).1 = true
      · simp only [h, if_true, List.filter_cons, Bool.not_true, Bool.false_eq_true, if_false]
        exact ih _ _ (Or.inr rfl)
      · have h' : p (decodeRune (b :: rest)).1 = false := by simpa using h
        have hb : b < 0x80 := by
          by_contra hb
          have hb2 : 0x80 ≤ b := by omega
          have h1 := decodeRune_high b rest hb2
          have h2 := hp _ h'
          omega
        rw [decodeRune_ascii b rest hb] at h' ⊢
        simp only [h', Bool.false_eq_true, if_false, List.filter_cons, Bool.not_false, if_true,
          Nat.sub_self]
        rw [ih _ _ (Or.inl rfl)]
    | succ k =>
      rcases hk with hk | hk
      · omega
      · subst hk
        simp only [removeClassRunsAux, runesAux, Bool.false_eq_true, if_false]
        exact ih _ _ (Or.inr rfl)

theorem runeCount_removeClassRuns (p : Nat → Bool) (hp : ∀ r, p r = false → r < 0x80)
    (s : GoString) :
    RuneCountInString (removeClassRuns p s) = ((runes s).filter fun r => !p r).length := by
  unfold RuneCountInString removeClassRuns
  rw [removeClassRunsAux_eq_filter p hp s 0 true (Or.inl rfl), ← runes, runes_of_ascii]
  intro b hb
  have := (List.mem_filter.1 hb).2
  exact hp b (by simpa using this)

/-! ## Properties of `validTXT` and `validKey` -/

theorem validTXT_iff (s : GoString) :
    validTXT s = true ↔
      (∀ r ∈ runes s, isTXTChar r = true) ∧ (RuneCountInString s + 1) % 44 = 0 := by
  unfold validTXT
  simp only [ne_eq, ite_not, removeClassRuns_eq_self_iff, notTXTChar, Bool.not_eq_false']
  by_cases h1 : ∀ r ∈ runes s, isTXTChar r = true
  · by_cases h2 : (RuneCountInString s + 1) % 44 = 0
    · simp only [h2, if_true]
      simp [h1]
    · simp only [h2, if_false]
      simp
  · simp only [h1, if_false, false_and]
    simp

theorem validKey_iff (k : GoString) :
    validKey k = true ↔ RuneCountInString k = 40 ∧ ∀ r ∈ runes k, isKeyChar r = true := by
  have hp : ∀ r, (!isKeyChar r) = false → r < 0x80 := by
    intro r hr
    simp only [isKeyChar, Bool.not_eq_false', Bool.or_eq_true, Bool.and_eq_true,
      decide_eq_true_eq, beq_iff_eq] at hr
    omega
  unfold validKey sanitizeString
  simp only [runeCount_removeClassRuns _ hp, Bool.not_not, Bool.if_false_right, Bool.and_true,
    decide_eq_true_eq]
  unfold RuneCountInString
  constructor
  · rintro ⟨h1, h2⟩
    refine ⟨h1, ?_⟩
    rw [← h1] at h2
    intro r hr
    simpa using List.filter_length_eq_length.1 h2 r hr
  · rintro ⟨h1, h2⟩
    refine ⟨h1, ?_⟩
    rw [← h1]
    exact List.filter_length_eq_length.2 (by simpa using h2)

/-! ## More on `validTXT` -/

theorem isTXTChar_lt (c : Nat) (h : isTXTChar c = true) : c < 0x80 := by
  simp only [isTXTChar, Bool.or_eq_true, Bool.and_eq_true, decide_eq_true_eq, beq_iff_eq] at h
  omega

/-- The validator `validTXT` in terms of the bytes of the string. -/
theorem validTXT_iff_bytes (s : GoString) :
    validTXT s = true ↔ (∀ b ∈ s, isTXTChar b = true) ∧ (s.length + 1) % 44 = 0 := by
  rw [validTXT_iff]
  unfold RuneCountInString
  constructor
  · rintro ⟨h1, h2⟩
    have hr := runes_eq_self_of_lt s (fun r hr => isTXTChar_lt r (h1 r hr))
    rw [hr] at h1 h2
    exact ⟨h1, h2⟩
  · rintro ⟨h1, h2⟩
    have hr := runes_of_ascii s (fun b hb => isTXTChar_lt b (h1 b hb))
    rw [hr]
    exact ⟨h1, h2⟩

/-! ## Hexadecimal digits -/

theorem lor_of_lt_16 : ∀ x < 16, ∀ y < 16, (x * 16) % 256 ||| y = x * 16 + y := by decide

theorem isLowerHex_cases (a : Nat) (h : isLowerHex a = true) :
    a ∈ hextable := by
  simp only [isLowerHex, Bool.or_eq_true, Bool.and_eq_true, decide_eq_true_eq] at h
  rcases h with ⟨h1, h2⟩ | ⟨h1, h2⟩ <;> interval_cases a <;> decide

theorem xvalues_lowerHex (a : Nat) (h : isLowerHex a = true) :
    xvalues a < 16 ∧ hextable.getD (xvalues a) 0 = a := by
  have := isLowerHex_cases a h
  simp only [hextable, List.mem_cons, List.mem_singleton, List.not_mem_nil, or_false] at this
  rcases this with h | h | h | h | h | h | h | h | h | h | h | h | h | h | h | h <;>
    subst h <;> decide

/-- A pair of lowercase digits is decoded to the byte they denote. -/
theorem xtob_lowerHex (a b : Nat) (ha : isLowerHex a = true) (hb : isLowerHex b = true) :
    xtob a b = (xvalues a * 16 + xvalues b, true) := by
  have h1 := xvalues_lowerHex a ha
  have h2 := xvalues_lowerHex b hb
  unfold xtob
  rw [lor_of_lt_16 _ h1.1 _ h2.1]
  have e1 : (xvalues a != 255) = true := by
    simp only [bne_iff_ne, ne_eq]; omega
  have e2 : (xvalues b != 255) = true := by
    simp only [bne_iff_ne, ne_eq]; omega
  rw [e1, e2]; rfl

/-- Encoding the byte of a pair of lowercase digits gives the pair back. -/
theorem hexEncode_lowerHex (a b : Nat) (ha : isLowerHex a = true) (hb : isLowerHex b = true) :
    hextable.getD ((xvalues a * 16 + xvalues b) / 16) 0 = a ∧
      hextable.getD ((xvalues a * 16 + xvalues b) % 16) 0 = b := by
  have h1 := xvalues_lowerHex a ha
  have h2 := xvalues_lowerHex b hb
  have e1 : (xvalues a * 16 + xvalues b) / 16 = xvalues a := by omega
  have e2 : (xvalues a * 16 + xvalues b) % 16 = xvalues b := by omega
  rw [e1, e2]
  exact ⟨h1.2, h2.2⟩

theorem length_succ_exists {n : Nat} {s : GoString} (h : s.length = n + 1) :
    ∃ c t, s = c :: t ∧ t.length = n := by
  cases s with
  | nil => simp at h
  | cons c t => exact ⟨c, t, rfl, by simpa using h⟩

/-! ## Parsing the canonical forms -/

set_option maxRecDepth 4000 in
set_option maxHeartbeats 1000000 in
/-- The hyphenated parser reads a canonical text to a value whose rendering
is that text, whatever follows the 36 bytes. -/
theorem parseHyphenated_canonical (t r : GoString) (h : IsCanonicalUUID t) :
    (parseHyphenated (t ++ r) zeroUUID).2 = none ∧
      UUIDString (parseHyphenated (t ++ r) zeroUUID).1 = t := by
  obtain ⟨hl0, h⟩ := h
  obtain ⟨c0, s1, rfl, hl1⟩ := length_succ_exists hl0
  obtain ⟨c1, s2, rfl, hl2⟩ := length_succ_exists hl1
  obtain ⟨c2, s3, rfl, hl3⟩ := length_succ_exists hl2
  obtain ⟨c3, s4, rfl, hl4⟩ := length_succ_exists hl3
  obtain ⟨c4, s5, rfl, hl5⟩ := length_succ_exists hl4
  obtain ⟨c5, s6, rfl, hl6⟩ := length_succ_exists hl5
  obtain ⟨c6, s7, rfl, hl7⟩ := length_succ_exists hl6
  obtain ⟨c7, s8, rfl, hl8⟩ := length_succ_exists hl7
  obtain ⟨c8, s9, rfl, hl9⟩ := length_succ_exists hl8
  obtain ⟨c9, s10, rfl, hl10⟩ := length_succ_exists hl9
  obtain ⟨c10, s11, rfl, hl11⟩ := length_succ_exists hl10
  obtain ⟨c11, s12, rfl, hl12⟩ := length_succ_exists hl11
  obtain ⟨c12, s13, rfl, hl13⟩ := length_succ_exists hl12
  obtain ⟨c13, s14, rfl, hl14⟩ := length_succ_exists hl13
  obtain ⟨c14, s15, rfl, hl15⟩ := length_succ_exists hl14
  obtain ⟨c15, s16, rfl, hl16⟩ := length_succ_exists hl15
  obtain ⟨c16, s17, rfl, hl17⟩ := length_succ_exists hl16
  obtain ⟨c17, s18, rfl, hl18⟩ := length_succ_exists hl17
  obtain ⟨c18, s19, rfl, hl19⟩ := length_succ_exists hl18
  obtain ⟨c19, s20, rfl, hl20⟩ := length_succ_exists hl19
  obtain ⟨c20, s21, rfl, hl21⟩ := length_succ_exists hl20
  obtain ⟨c21, s22, rfl, hl22⟩ := length_succ_exists hl21
  obtain ⟨c22, s23, rfl, hl23⟩ := length_succ_exists hl22
  obtain ⟨c23, s24, rfl, hl24⟩ := length_succ_exists hl23
  obtain ⟨c24, s25, rfl, hl25⟩ := length_succ_exists hl24
  obtain ⟨c25, s26, rfl, hl26⟩ := length_succ_exists hl25
  obtain ⟨c26, s27, rfl, hl27⟩ := length_succ_exists hl26
  obtain ⟨c27, s28, rfl, hl28⟩ := length_succ_exists hl27
  obtain ⟨c28, s29, rfl, hl29⟩ := length_succ_exists hl28
  obtain ⟨c29, s30, rfl, hl30⟩ := length_succ_exists hl29
  obtain ⟨c30, s31, rfl, hl31⟩ := length_succ_exists hl30
  obtain ⟨c31, s32, rfl, hl32⟩ := length_succ_exists hl31
  obtain ⟨c32, s33, rfl, hl33⟩ := length_succ_exists hl32
  obtain ⟨c33, s34, rfl, hl34⟩ := length_succ_exists hl33
  obtain ⟨c34, s35, rfl, hl35⟩ := length_succ_exists hl34
  obtain ⟨c35, s36, rfl, hl36⟩ := length_succ_exists hl35
  have hnil : s36 = [] := List.length_eq_zero.1 hl36
  subst hnil
  clear hl0 hl1 hl2 hl3 hl4 hl5 hl6 hl7 hl8 hl9 hl10 hl11 hl12 hl13 hl14 hl15 hl16 hl17 hl18 hl19 hl20 hl21 hl22 hl23 hl24 hl25 hl26 hl27 hl28 hl29 hl30 hl31 hl32 hl33 hl34 hl35 hl36
  simp only [Nat.forall_lt_succ, Nat.not_lt_zero, false_imp_iff, implies_true, true_and] at h
  simp only [List.getD_cons_zero, List.getD_cons_succ, Nat.reduceEqDiff, or_self, or_false, false_or, if_true, if_false, OfNat.ofNat_ne_zero, OfNat.zero_ne_ofNat, and_assoc] at h
  obtain ⟨h0, h1, h2, h3, h4, h5, h6, h7, h8, h9, h10, h11, h12, h13, h14, h15, h16, h17, h18, h19, h20, h21, h22, h23, h24, h25, h26, h27, h28, h29, h30, h31, h32, h33, h34, h35⟩ := h
  subst h8 h13 h18 h23
  simp only [parseHyphenated, List.cons_append, List.getD_cons_zero, List.getD_cons_succ, ne_eq, not_true_eq_false, or_self, if_false]
  simp only [hexOffsets, parseHexLoop, List.getD_cons_zero, List.getD_cons_succ, Nat.reduceAdd, xtob_lowerHex _ _ h0 h1, xtob_lowerHex _ _ h2 h3, xtob_lowerHex _ _ h4 h5, xtob_lowerHex _ _ h6 h7, xtob_lowerHex _ _ h9 h10, xtob_lowerHex _ _ h11 h12, xtob_lowerHex _ _ h14 h15, xtob_lowerHex _ _ h16 h17, xtob_lowerHex _ _ h19 h20, xtob_lowerHex _ _ h21 h22, xtob_lowerHex _ _ h24 h25, xtob_lowerHex _ _ h26 h27, xtob_lowerHex _ _ h28 h29, xtob_lowerHex _ _ h30 h31, xtob_lowerHex _ _ h32 h33, xtob_lowerHex _ _ h34 h35, Bool.not_true, Bool.false_eq_true, if_false]
  have hz : zeroUUID = [0, 0, 0, 0, 0, 0, 0, 0, 0, 0, 0, 0, 0, 0, 0, 0] := rfl
  simp only [hz, List.set_cons_zero, List.set_cons_succ, true_and]
  simp only [UUIDString, List.take_succ_cons, List.take_zero, List.drop_succ_cons, List.drop_zero, hexEncode, (hexEncode_lowerHex _ _ h0 h1).1, (hexEncode_lowerHex _ _ h0 h1).2, (hexEncode_lowerHex _ _ h2 h3).1, (hexEncode_lowerHex _ _ h2 h3).2, (hexEncode_lowerHex _ _ h4 h5).1, (hexEncode_lowerHex _ _ h4 h5).2, (hexEncode_lowerHex _ _ h6 h7).1, (hexEncode_lowerHex _ _ h6 h7).2, (hexEncode_lowerHex _ _ h9 h10).1, (hexEncode_lowerHex _ _ h9 h10).2, (hexEncode_lowerHex _ _ h11 h12).1, (hexEncode_lowerHex _ _ h11 h12).2, (hexEncode_lowerHex _ _ h14 h15).1, (hexEncode_lowerHex _ _ h14 h15).2, (hexEncode_lowerHex _ _ h16 h17).1, (hexEncode_lowerHex _ _ h16 h17).2, (hexEncode_lowerHex _ _ h19 h20).1, (hexEncode_lowerHex _ _ h19 h20).2, (hexEncode_lowerHex _ _ h21 h22).1, (hexEncode_lowerHex _ _ h21 h22).2, (hexEncode_lowerHex _ _ h24 h25).1, (hexEncode_lowerHex _ _ h24 h25).2, (hexEncode_lowerHex _ _ h26 h27).1, (hexEncode_lowerHex _ _ h26 h27).2, (hexEncode_lowerHex _ _ h28 h29).1, (hexEncode_lowerHex _ _ h28 h29).2, (hexEncode_lowerHex _ _ h30 h31).1, (hexEncode_lowerHex _ _ h30 h31).2, (hexEncode_lowerHex _ _ h32 h33).1, (hexEncode_lowerHex _ _ h32 h33).2, (hexEncode_lowerHex _ _ h34 h35).1, (hexEncode_lowerHex _ _ h34 h35).2, List.cons_append, List.nil_append]

set_option maxRecDepth 4000 in
set_option maxHeartbeats 1000000 in
/-- The loop over 32 raw digits reads lowercase digits to a value whose
hexadecimal encoding is the text. -/
theorem parseRawLoop_lowerHex (s : GoString) (hl0 : s.length = 32)
    (h : ∀ i < 32, isLowerHex (s.getD i 0) = true) :
    (parseRawLoop s (List.range 16) zeroUUID).2 = none ∧
      hexEncode (parseRawLoop s (List.range 16) zeroUUID).1 = s := by
  obtain ⟨c0, s1, rfl, hl1⟩ := length_succ_exists hl0
  obtain ⟨c1, s2, rfl, hl2⟩ := length_succ_exists hl1
  obtain ⟨c2, s3, rfl, hl3⟩ := length_succ_exists hl2
  obtain ⟨c3, s4, rfl, hl4⟩ := length_succ_exists hl3
  obtain ⟨c4, s5, rfl, hl5⟩ := length_succ_exists hl4
  obtain ⟨c5, s6, rfl, hl6⟩ := length_succ_exists hl5
  obtain ⟨c6, s7, rfl, hl7⟩ := length_succ_exists hl6
  obtain ⟨c7, s8, rfl, hl8⟩ := length_succ_exists hl7
  obtain ⟨c8, s9, rfl, hl9⟩ := length_succ_exists hl8
  obtain ⟨c9, s10, rfl, hl10⟩ := length_succ_exists hl9
  obtain ⟨c10, s11, rfl, hl11⟩ := length_succ_exists hl10
  obtain ⟨c11, s12, rfl, hl12⟩ := length_succ_exists hl11
  obtain ⟨c12, s13, rfl, hl13⟩ := length_succ_exists hl12
  obtain ⟨c13, s14, rfl, hl14⟩ := length_succ_exists hl13
  obtain ⟨c14, s15, rfl, hl15⟩ := length_succ_exists hl14
  obtain ⟨c15, s16, rfl, hl16⟩ := length_succ_exists hl15
  obtain ⟨c16, s17, rfl, hl17⟩ := length_succ_exists hl16
  obtain ⟨c17, s18, rfl, hl18⟩ := length_succ_exists hl17
  obtain ⟨c18, s19, rfl, hl19⟩ := length_succ_exists hl18
  obtain ⟨c19, s20, rfl, hl20⟩ := length_succ_exists hl19
  obtain ⟨c20, s21, rfl, hl21⟩ := length_succ_exists hl20
  obtain ⟨c21, s22, rfl, hl22⟩ := length_succ_exists hl21
  obtain ⟨c22, s23, rfl, hl23⟩ := length_succ_exists hl22
  obtain ⟨c23, s24, rfl, hl24⟩ := length_succ_exists hl23
  obtain ⟨c24, s25, rfl, hl25⟩ := length_succ_exists hl24
  obtain ⟨c25, s26, rfl, hl26⟩ := length_succ_exists hl25
  obtain ⟨c26, s27, rfl, hl27⟩ := length_succ_exists hl26
  obtain ⟨c27, s28, rfl, hl28⟩ := length_succ_exists hl27
  obtain ⟨c28, s29, rfl, hl29⟩ := length_succ_exists hl28
  obtain ⟨c29, s30, rfl, hl30⟩ := length_succ_exists hl29
  obtain ⟨c30, s31, rfl, hl31⟩ := length_succ_exists hl30
  obtain ⟨c31, s32, rfl, hl32⟩ := length_succ_exists hl31
  have hnil : s32 = [] := List.length_eq_zero.1 hl32
  subst hnil
  clear hl0 hl1 hl2 hl3 hl4 hl5 hl6 hl7 hl8 hl9 hl10 hl11 hl12 hl13 hl14 hl15 hl16 hl17 hl18 hl19 hl20 hl21 hl22 hl23 hl24 hl25 hl26 hl27 hl28 hl29 hl30 hl31 hl32
  simp only [Nat.forall_lt_succ, Nat.not_lt_zero, false_imp_iff, implies_true, true_and] at h
  simp only [List.getD_cons_zero, List.getD_cons_succ, and_assoc] at h
  obtain ⟨h0, h1, h2, h3, h4, h5, h6, h7, h8, h9, h10, h11, h12, h13, h14, h15, h16, h17, h18, h19, h20, h21, h22, h23, h24, h25, h26, h27, h28, h29, h30, h31⟩ := h
  have hr : List.range 16 = [0, 1, 2, 3, 4, 5, 6, 7, 8, 9, 10, 11, 12, 13, 14, 15] := by decide
  have hz : zeroUUID = [0, 0, 0, 0, 0, 0, 0, 0, 0, 0, 0, 0, 0, 0, 0, 0] := rfl
  simp only [hr, parseRawLoop, Nat.reduceMul, Nat.reduceAdd, List.getD_cons_zero, List.getD_cons_succ, xtob_lowerHex _ _ h0 h1, xtob_lowerHex _ _ h2 h3, xtob_lowerHex _ _ h4 h5, xtob_lowerHex _ _ h6 h7, xtob_lowerHex _ _ h8 h9, xtob_lowerHex _ _ h10 h11, xtob_lowerHex _ _ h12 h13, xtob_lowerHex _ _ h14 h15, xtob_lowerHex _ _ h16 h17, xtob_lowerHex _ _ h18 h19, xtob_lowerHex _ _ h20 h21, xtob_lowerHex _ _ h22 h23, xtob_lowerHex _ _ h24 h25, xtob_lowerHex _ _ h26 h27, xtob_lowerHex _ _ h28 h29, xtob_lowerHex _ _ h30 h31, Bool.not_true, Bool.false_eq_true, if_false]
  simp only [hz, List.set_cons_zero, List.set_cons_succ, true_and]
  simp only [hexEncode, (hexEncode_lowerHex _ _ h0 h1).1, (hexEncode_lowerHex _ _ h0 h1).2, (hexEncode_lowerHex _ _ h2 h3).1, (hexEncode_lowerHex _ _ h2 h3).2, (hexEncode_lowerHex _ _ h4 h5).1, (hexEncode_lowerHex _ _ h4 h5).2, (hexEncode_lowerHex _ _ h6 h7).1, (hexEncode_lowerHex _ _ h6 h7).2, (hexEncode_lowerHex _ _ h8 h9).1, (hexEncode_lowerHex _ _ h8 h9).2, (hexEncode_lowerHex _ _ h10 h11).1, (hexEncode_lowerHex _ _ h10 h11).2, (hexEncode_lowerHex _ _ h12 h13).1, (hexEncode_lowerHex _ _ h12 h13).2, (hexEncode_lowerHex _ _ h14 h15).1, (hexEncode_lowerHex _ _ h14 h15).2, (hexEncode_lowerHex _ _ h16 h17).1, (hexEncode_lowerHex _ _ h16 h17).2, (hexEncode_lowerHex _ _ h18 h19).1, (hexEncode_lowerHex _ _ h18 h19).2, (hexEncode_lowerHex _ _ h20 h21).1, (hexEncode_lowerHex _ _ h20 h21).2, (hexEncode_lowerHex _ _ h22 h23).1, (hexEncode_lowerHex _ _ h22 h23).2, (hexEncode_lowerHex _ _ h24 h25).1, (hexEncode_lowerHex _ _ h24 h25).2, (hexEncode_lowerHex _ _ h26 h27).1, (hexEncode_lowerHex _ _ h26 h27).2, (hexEncode_lowerHex _ _ h28 h29).1, (hexEncode_lowerHex _ _ h28 h29).2, (hexEncode_lowerHex _ _ h30 h31).1, (hexEncode_lowerHex _ _ h30 h31).2]

/-! ## `strings.ToLower` -/

theorem decodeRune_isolated (b : Nat) (rest : GoString) (hb : 0x80 ≤ b)
    (hr : rest.getD 0 0 < 0x80) : decodeRune (b :: rest) = (RuneError, 1) := by
  have hb' : ¬ b < 0x80 := by omega
  simp only [decodeRune, RuneSelf, hb', if_false]
  cases hf : first b with
  | none => rfl
  | some t =>
    obtain ⟨sz, lo, hi⟩ := t
    have hs := first_spec b sz lo hi hf
    have h1 : (b :: rest).getD 1 0 = rest.getD 0 0 := rfl
    dsimp only
    rw [h1]
    have h2 : rest.getD 0 0 < lo := by omega
    simp only [h2, true_or, if_true, ite_self]

theorem encodeRune_shape (r : Nat) :
    (r ≤ 0x7F ∧ encodeRune r = [r]) ∨
      ∃ x0 x1 t, encodeRune r = x0 :: x1 :: t ∧ 0x80 ≤ x1 := by
  unfold encodeRune
  split_ifs with h1 h2 h3 h4
  · exact Or.inl ⟨h1, rfl⟩
  · exact Or.inr ⟨_, _, _, rfl, by omega⟩
  · exact Or.inr ⟨_, _, _, rfl, by omega⟩
  · exact Or.inr ⟨_, _, _, rfl, by omega⟩
  · exact Or.inr ⟨_, _, _, rfl, by omega⟩

theorem unicodeToLower_ascii (tbl : Nat → Nat) (b : Nat) (hb : b < 0x80) :
    unicodeToLower tbl b = if isUpperASCII b then b + (0x61 - 0x41) else b := by
  have h : b ≤ 0x7F := by omega
  simp only [unicodeToLower, h, if_true, isUpperASCII, Bool.and_eq_true, decide_eq_true_eq]

/-- The first loop of `strings.Map(unicode.ToLower, s)` finds a change in every
string that has a byte outside ASCII, none of them followed by another. -/
theorem mapScanAux_isolated (tbl : Nat → Nat) (s : GoString) :
    (∀ i, 0x80 ≤ s.getD i 0 → s.getD (i + 1) 0 < 0x80) → (∃ b ∈ s, 0x80 ≤ b) →
      ∃ out, mapScanAux (unicodeToLower tbl) 0 s = some out ∧ out ≠ s := by
  induction s with
  | nil => intro _ h; simp at h
  | cons b rest ih =>
    intro hiso hex
    have hiso' : ∀ i, 0x80 ≤ rest.getD i 0 → rest.getD (i + 1) 0 < 0x80 :=
      fun i hi => hiso (i + 1) hi
    by_cases hb : b < 0x80
    · have hne : b ≠ RuneError := by simp only [RuneError]; omega
      simp only [mapScanAux, decodeRune_ascii b rest hb, unicodeToLower_ascii tbl b hb]
      by_cases hu : isUpperASCII b = true
      · simp only [hu, if_true]
        have hlt : b + (0x61 - 0x41) ≤ 0x7F := by
          simp only [isUpperASCII, Bool.and_eq_true, decide_eq_true_eq] at hu
          omega
        split_ifs with hc
        · omega
        · refine ⟨_, rfl, ?_⟩
          simp only [encodeRune, hlt, if_true, List.singleton_append, ne_eq, List.cons.injEq,
            not_and]
          intro h; omega
      · simp only [hu, Bool.false_eq_true, if_false, Nat.sub_self]
        have hex' : ∃ x ∈ rest, 0x80 ≤ x := by
          obtain ⟨x, hx, hx2⟩ := hex
          rcases List.mem_cons.1 hx with rfl | hx
          · omega
          · exact ⟨x, hx, hx2⟩
        obtain ⟨out, ho, hne'⟩ := ih hiso' hex'
        split_ifs with hc
        · refine ⟨b :: out, by rw [ho]; rfl, ?_⟩
          simpa using hne'
        · exact absurd ⟨trivial, fun h => hne h.1⟩ hc
    · have hb' : 0x80 ≤ b := by omega
      have hr : rest.getD 0 0 < 0x80 := hiso 0 hb'
      simp only [mapScanAux, decodeRune_isolated b rest hb' hr]
      split_ifs with hc
      · exact absurd ⟨trivial, trivial⟩ hc.2
      · refine ⟨_, rfl, ?_⟩
        rcases encodeRune_shape (unicodeToLower tbl RuneError) with ⟨h1, h2⟩ | ⟨x0, x1, t, h2, h3⟩
        · rw [h2]
          simp only [List.singleton_append, ne_eq, List.cons.injEq, not_and]
          intro h; omega
        · rw [h2]
          cases rest with
          | nil => simp
          | cons y ys =>
            simp only [List.getD_cons_zero] at hr
            simp only [List.cons_append, ne_eq, List.cons.injEq, not_and]
            intro _ h; omega

theorem map_lower_eq_self (s : GoString)
    (h : (s.map fun c => if isUpperASCII c = true then c + (0x61 - 0x41) else c) = s) :
    ∀ b ∈ s, isUpperASCII b = false := by
  induction s with
  | nil => intro b hb; simp at hb
  | cons c t ih =>
    simp only [List.map_cons, List.cons.injEq] at h
    intro b hb
    rcases List.mem_cons.1 hb with rfl | hb
    · by_contra hu
      have hu' : isUpperASCII b = true := by simpa using hu
      rw [if_pos hu'] at h
      omega
    · exact ih h.2 b hb

/-- On an ASCII string `strings.ToLower` returns the string itself exactly when
it holds no uppercase letter. -/
theorem stringsToLower_ascii (tbl : Nat → Nat) (s : GoString) (h : ∀ b ∈ s, b < 0x80) :
    stringsToLower tbl s = s ↔ ∀ b ∈ s, isUpperASCII b = false := by
  have hall : (s.all fun c => decide (c < RuneSelf)) = true := by
    simpa [RuneSelf] using h
  unfold stringsToLower
  simp only [hall, if_true]
  by_cases hu : s.any isUpperASCII = true
  · simp only [hu, Bool.not_true, Bool.false_eq_true, if_false]
    constructor
    · intro hm b hb
      exact map_lower_eq_self s hm b hb
    · intro hn
      obtain ⟨b, hb, hb2⟩ := List.any_eq_true.1 hu
      rw [hn b hb] at hb2
      exact Bool.noConfusion hb2
  · simp only [hu, Bool.not_false, if_true, true_iff]
    intro b hb
    by_contra hb2
    exact hu (List.any_eq_true.2 ⟨b, hb, by simpa using hb2⟩)


theorem stringsToLower_isolated (tbl : Nat → Nat) (s : GoString)
    (hiso : ∀ i, 0x80 ≤ s.getD i 0 → s.getD (i + 1) 0 < 0x80) (hex : ∃ b ∈ s, 0x80 ≤ b) :
    stringsToLower tbl s ≠ s := by
  have hall : (s.all fun c => decide (c < RuneSelf)) = false := by
    obtain ⟨b, hb, hb2⟩ := hex
    rw [← Bool.not_eq_true, List.all_eq_true]
    intro h
    have := h b hb
    simp only [RuneSelf, decide_eq_true_eq] at this
    omega
  obtain ⟨out, ho, hne⟩ := mapScanAux_isolated tbl s hiso hex
  unfold stringsToLower stringsMap
  simp only [hall, Bool.false_eq_true, if_false, ho, Option.getD_some]
  exact hne

/-! ## What `uuid.Parse` accepts -/

theorem getD_append_of_lt (t r : GoString) (i : Nat) (h : i < t.length) :
    (t ++ r).getD i 0 = t.getD i 0 := by
  rw [List.getD_eq_getElem _ _ (by rw [List.length_append]; omega), List.getD_eq_getElem _ _ h,
    List.getElem_append_left h]

theorem xvalues_ne_255 (c : Nat) (h : xvalues c ≠ 255) :
    c < 0x80 ∧ (isUpperASCII c = false → isLowerHex c = true) := by
  unfold xvalues at h
  simp only [isUpperASCII, isLowerHex, Bool.and_eq_false_iff, decide_eq_false_iff_not,
    Bool.or_eq_true, Bool.and_eq_true, decide_eq_true_eq]
  split_ifs at h <;> omega

theorem xtob_ok (a b : Nat) (h : (xtob a b).2 = true) : xvalues a ≠ 255 ∧ xvalues b ≠ 255 := by
  simpa [xtob] using h

theorem parseHexLoop_ok (s : GoString) (xs : List Nat) :
    ∀ i uuid, (parseHexLoop s xs i uuid).2 = none →
      ∀ x ∈ xs, (xtob (s.getD x 0) (s.getD (x + 1) 0)).2 = true := by
  induction xs with
  | nil => intro i uuid _ x hx; simp at hx
  | cons y ys ih =>
    intro i uuid h x hx
    simp only [parseHexLoop] at h
    by_cases hy : (xtob (s.getD y 0) (s.getD (y + 1) 0)).2 = true
    · simp only [hy, Bool.not_true, Bool.false_eq_true, if_false] at h
      rcases List.mem_cons.1 hx with rfl | hx
      · exact hy
      · exact ih _ _ h x hx
    · have hy' : (!(xtob (s.getD y 0) (s.getD (y + 1) 0)).2) = true := by simpa using hy
      rw [if_pos hy'] at h
      exact absurd h (by simp)

theorem parseRawLoop_ok (s : GoString) (is : List Nat) :
    ∀ uuid, (parseRawLoop s is uuid).2 = none →
      ∀ i ∈ is, (xtob (s.getD (i * 2) 0) (s.getD (i * 2 + 1) 0)).2 = true := by
  induction is with
  | nil => intro uuid _ x hx; simp at hx
  | cons y ys ih =>
    intro uuid h x hx
    simp only [parseRawLoop] at h
    by_cases hy : (xtob (s.getD (y * 2) 0) (s.getD (y * 2 + 1) 0)).2 = true
    · simp only [hy, Bool.not_true, Bool.false_eq_true, if_false] at h
      rcases List.mem_cons.1 hx with rfl | hx
      · exact hy
      · exact ih _ h x hx
    · have hy' : (!(xtob (s.getD (y * 2) 0) (s.getD (y * 2 + 1) 0)).2) = true := by
        simpa using hy
      rw [if_pos hy'] at h
      exact absurd h (by simp)

/-- A text accepted by the hyphenated parser has hyphens at 8, 13, 18 and 23
and hexadecimal digits, of either case, at the other 32 places. -/
theorem parseHyphenated_ok (t : GoString) (uuid : UUID)
    (h : (parseHyphenated t uuid).2 = none) :
    ∀ i < 36, if i = 8 ∨ i = 13 ∨ i = 18 ∨ i = 23 then t.getD i 0 = 0x2D
      else xvalues (t.getD i 0) ≠ 255 := by
  unfold parseHyphenated at h
  split_ifs at h with hc
  · have hx := parseHexLoop_ok t hexOffsets 0 uuid h
    have hx' : ∀ x ∈ hexOffsets, xvalues (t.getD x 0) ≠ 255 ∧ xvalues (t.getD (x + 1) 0) ≠ 255 :=
      fun x hx1 => xtob_ok _ _ (hx x hx1)
    simp only [hexOffsets, List.forall_mem_cons, List.not_mem_nil, false_imp_iff, implies_true,
      and_true, Nat.reduceAdd] at hx'
    simp only [ne_eq, not_or, not_not] at hc
    intro i hi
    obtain ⟨hc8, hc13, hc18, hc23⟩ := hc
    interval_cases i <;> simp only [Nat.reduceEqDiff, or_self, or_false, false_or, or_true,
      if_true, if_false, hc8, hc13, hc18, hc23, ne_eq, hx', not_false_eq_true]

theorem forall_mem_of_forall_getD (s : GoString) (n : Nat) (hl : s.length = n) (P : Nat → Prop)
    (h : ∀ i < n, P (s.getD i 0)) : ∀ b ∈ s, P b := by
  intro b hb
  obtain ⟨i, hi, rfl⟩ := List.mem_iff_getElem.1 hb
  have := h i (by omega)
  rwa [List.getD_eq_getElem _ _ hi] at this

theorem forall_getD_of_forall_mem (s : GoString) (P : Nat → Prop) (h : ∀ b ∈ s, P b) :
    ∀ i < s.length, P (s.getD i 0) := by
  intro i hi
  rw [List.getD_eq_getElem _ _ hi]
  exact h _ (List.getElem_mem _)

theorem hyphenated_ascii (t r : GoString) (hl : t.length = 36)
    (hp : (parseHyphenated (t ++ r) zeroUUID).2 = none) : ∀ b ∈ t, b < 0x80 := by
  refine forall_mem_of_forall_getD t 36 hl (fun b => b < 0x80) ?_
  intro i hi
  have h := parseHyphenated_ok _ _ hp i hi
  rw [getD_append_of_lt t r i (by omega)] at h
  split_ifs at h
  · rw [h]; decide
  · exact (xvalues_ne_255 _ h).1

theorem hyphenated_canonical (t r : GoString) (hl : t.length = 36)
    (hp : (parseHyphenated (t ++ r) zeroUUID).2 = none)
    (hu : ∀ b ∈ t, isUpperASCII b = false) : IsCanonicalUUID t := by
  refine ⟨hl, ?_⟩
  intro i hi
  have h := parseHyphenated_ok _ _ hp i hi
  rw [getD_append_of_lt t r i (by omega)] at h
  have hu' := forall_getD_of_forall_mem t _ hu i (by omega)
  split_ifs at h ⊢
  · exact h
  · exact (xvalues_ne_255 _ h).2 hu'

theorem raw_lowerHex (s : GoString)
    (hp : (parseRawLoop s (List.range 16) zeroUUID).2 = none) :
    ∀ i < 32, s.getD i 0 < 0x80 ∧ (isUpperASCII (s.getD i 0) = false →
      isLowerHex (s.getD i 0) = true) := by
  have hx := parseRawLoop_ok s _ _ hp
  intro i hi
  have h1 := xtob_ok _ _ (hx (i / 2) (List.mem_range.2 (by omega)))
  rcases Nat.mod_two_eq_zero_or_one i with h2 | h2
  · have e : i / 2 * 2 = i := by omega
    rw [e] at h1
    exact xvalues_ne_255 _ h1.1
  · have e : i / 2 * 2 + 1 = i := by omega
    rw [e] at h1
    exact xvalues_ne_255 _ h1.2

theorem lower_le (c : Nat) : c ≤ (if isUpperASCII c = true then c + (0x61 - 0x41) else c) := by
  split_ifs <;> omega

theorem map_lower_of_no_upper (l : GoString) (h : ∀ b ∈ l, isUpperASCII b = false) :
    (l.map fun c => if isUpperASCII c = true then c + (0x61 - 0x41) else c) = l := by
  induction l with
  | nil => rfl
  | cons c t ih =>
    simp only [List.map_cons, h c (List.mem_cons_self _ _), Bool.false_eq_true, if_false,
      ih (fun b hb => h b (List.mem_cons_of_mem _ hb))]

theorem hasURNPrefix_ascii (s : GoString) (h : hasURNPrefix s = true) :
    ∀ c ∈ s.take 9, c < 0x80 := by
  intro c hc
  simp only [hasURNPrefix, beq_iff_eq] at h
  have h1 : (if isUpperASCII c = true then c + (0x61 - 0x41) else c) ∈
      [0x75, 0x72, 0x6E, 0x3A, 0x75, 0x75, 0x69, 0x64, 0x3A] := by
    rw [← h]
    exact List.mem_map.2 ⟨c, hc, rfl⟩
  have h2 := lower_le c
  simp only [List.mem_cons, List.mem_singleton, List.not_mem_nil, or_false] at h1
  omega

/-- A string that passes the case guard and that `uuid.Parse` accepts is ASCII,
holds no uppercase letter and is one of the four forms of the parsed value. -/
theorem parse_accepts (tbl : Nat → Nat) (s : GoString) (hg : stringsToLower tbl s = s)
    (hp : (Parse s).2 = none) :
    (∀ b ∈ s, b < 0x80) ∧ (∀ b ∈ s, isUpperASCII b = false) ∧ IsAcceptedForm s (Parse s).1 := by
  by_cases h36 : s.length = 36
  · have hP : Parse s = parseHyphenated (s ++ []) zeroUUID := by
      simp only [Parse, h36, if_true, List.append_nil]
    rw [hP] at hp ⊢
    have hascii := hyphenated_ascii s [] h36 hp
    have hnoup := (stringsToLower_ascii tbl s hascii).1 hg
    have hcan := hyphenated_canonical s [] h36 hp hnoup
    exact ⟨hascii, hnoup, Or.inl (parseHyphenated_canonical s [] hcan).2.symm⟩
  by_cases h45 : s.length = 36 + 9
  · by_cases hpre : hasURNPrefix s = true
    · have hP : Parse s = parseHyphenated (s.drop 9 ++ []) zeroUUID := by
        simp [Parse, h45, hpre]
      rw [hP] at hp ⊢
      have hl : (s.drop 9).length = 36 := by rw [List.length_drop]; omega
      have hs : s = s.take 9 ++ s.drop 9 := (List.take_append_drop 9 s).symm
      have hascii : ∀ b ∈ s, b < 0x80 := by
        intro b hb
        rw [hs] at hb
        rcases List.mem_append.1 hb with hb | hb
        · exact hasURNPrefix_ascii s hpre b hb
        · exact hyphenated_ascii _ [] hl hp b hb
      have hnoup := (stringsToLower_ascii tbl s hascii).1 hg
      have hcan := hyphenated_canonical _ [] hl hp
        (fun b hb => hnoup b (List.mem_of_mem_drop hb))
      refine ⟨hascii, hnoup, Or.inr (Or.inl ?_)⟩
      rw [(parseHyphenated_canonical _ [] hcan).2]
      have h9 : s.take 9 = urnPrefix := by
        have := map_lower_of_no_upper (s.take 9) (fun b hb => hnoup b (List.mem_of_mem_take hb))
        simp only [hasURNPrefix, beq_iff_eq] at hpre
        rw [this] at hpre
        exact hpre
      rw [← h9]
      exact hs
    · have hP : (Parse s).2 = some (GoError.invalidURNPrefix (s.take 9)) := by
        simp [Parse, h45, hpre]
      rw [hP] at hp
      exact absurd hp (by simp)
  by_cases h38 : s.length = 36 + 2
  · have hP : Parse s = parseHyphenated (s.drop 1) zeroUUID := by
      simp [Parse, h38]
    obtain ⟨a, s', rfl, hl'⟩ := length_succ_exists h38
    rcases List.eq_nil_or_concat s' with rfl | ⟨t, b, rfl⟩
    · simp at hl'
    rw [List.concat_eq_append] at *
    have hl : t.length = 36 := by simpa using hl'
    simp only [List.drop_succ_cons, List.drop_zero] at hP
    rw [hP] at hp ⊢
    have hmid := hyphenated_ascii t [b] hl hp
    have hascii : ∀ x ∈ a :: (t ++ [b]), x < 0x80 := by
      by_contra hcon
      refine stringsToLower_isolated tbl _ ?_ ?_ hg
      · intro i hi
        cases i with
        | zero =>
          rw [List.getD_cons_succ, getD_append_of_lt t [b] 0 (by omega)]
          exact forall_getD_of_forall_mem t _ hmid 0 (by omega)
        | succ j =>
          rw [List.getD_cons_succ] at hi ⊢
          have hj : ¬ j < 36 := by
            intro hj
            rw [getD_append_of_lt t [b] j (by omega)] at hi
            have := forall_getD_of_forall_mem t _ hmid j (by omega)
            omega
          rw [List.getD_eq_default _ _ (by simp; omega)]
          omega
      · push_neg at hcon
        obtain ⟨x, hx, hx2⟩ := hcon
        exact ⟨x, hx, hx2⟩
    have hnoup := (stringsToLower_ascii tbl _ hascii).1 hg
    have hcan := hyphenated_canonical t [b] hl hp (fun x hx => hnoup x (by simp [hx]))
    refine ⟨hascii, hnoup, Or.inr (Or.inr (Or.inl ⟨a, b, ?_⟩))⟩
    rw [(parseHyphenated_canonical t [b] hcan).2]
  by_cases h32 : s.length = 32
  · have hP : Parse s = parseRawLoop s (List.range 16) zeroUUID := by
      simp [Parse, h32]
    rw [hP] at hp ⊢
    have hraw := raw_lowerHex s hp
    have hascii : ∀ b ∈ s, b < 0x80 :=
      forall_mem_of_forall_getD s 32 h32 (fun b => b < 0x80) (fun i hi => (hraw i hi).1)
    have hnoup := (stringsToLower_ascii tbl s hascii).1 hg
    have hlow : ∀ i < 32, isLowerHex (s.getD i 0) = true := fun i hi =>
      (hraw i hi).2 (forall_getD_of_forall_mem s _ hnoup i (by omega))
    exact ⟨hascii, hnoup, Or.inr (Or.inr (Or.inr (parseRawLoop_lowerHex s h32 hlow).2.symm))⟩
  · have hP : (Parse s).2 = some (GoError.invalidLength s.length) := by
      simp only [Parse, h36, h45, h38, h32, if_false]
    rw [hP] at hp
    exact absurd hp (by simp)


/-! ## Errors of `uuid.Parse` -/

theorem parseHexLoop_err (s : GoString) (xs : List Nat) :
    ∀ i uuid, (parseHexLoop s xs i uuid).2 = none ∨
      (parseHexLoop s xs i uuid).2 = some GoError.invalidFormat := by
  induction xs with
  | nil => intro i uuid; exact Or.inl rfl
  | cons y ys ih =>
    intro i uuid
    simp only [parseHexLoop]
    split_ifs
    · exact Or.inr rfl
    · exact ih _ _

theorem parseRawLoop_err (s : GoString) (is : List Nat) :
    ∀ uuid, (parseRawLoop s is uuid).2 = none ∨
      (parseRawLoop s is uuid).2 = some GoError.invalidFormat := by
  induction is with
  | nil => intro uuid; exact Or.inl rfl
  | cons y ys ih =>
    intro uuid
    simp only [parseRawLoop]
    split_ifs
    · exact Or.inr rfl
    · exact ih _

theorem parseHyphenated_err (s : GoString) (uuid : UUID) :
    (parseHyphenated s uuid).2 = none ∨
      (parseHyphenated s uuid).2 = some GoError.invalidFormat := by
  unfold parseHyphenated
  split_ifs
  · exact Or.inr rfl
  · exact parseHexLoop_err _ _ _ _

/-- The parser never returns the error of the case guard. -/
theorem Parse_ne_needLowercase (s : GoString) : (Parse s).2 ≠ some GoError.needLowercase := by
  unfold Parse
  dsimp only
  split_ifs
  · rcases parseHyphenated_err s zeroUUID with h | h <;> rw [h] <;> simp
  · simp
  · rcases parseHyphenated_err (s.drop 9) zeroUUID with h | h <;> rw [h] <;> simp
  · rcases parseHyphenated_err (s.drop 1) zeroUUID with h | h <;> rw [h] <;> simp
  · rcases parseRawLoop_err s (List.range 16) zeroUUID with h | h <;> rw [h] <;> simp
  · simp

/-! ## Properties of `validSubdomain` -/

theorem isLabelSequence_head (s : GoString) (h : IsLabelSequence s) :
    ∃ c t, s = c :: t ∧ lowerAlnum c = true := by
  obtain ⟨ls, hne, hls, rfl⟩ := h
  cases ls with
  | nil => exact (hne rfl).elim
  | cons l ls =>
    obtain ⟨h1, h2, h3, -⟩ := hls l (List.mem_cons_self _ _)
    cases l with
    | nil => exact (h1 rfl).elim
    | cons c t =>
      refine ⟨c, _, by rw [intercalate_dot_cons]; rfl, ?_⟩
      exact (lowerAlnum_iff c).2 ⟨h2 c (by simp), by simpa using h3⟩

theorem isLabel_getLast (l : GoString) (h : IsLabel l) :
    ∃ m d, l = m ++ [d] ∧ lowerAlnum d = true := by
  obtain ⟨h1, h2, -, h4⟩ := h
  rcases List.eq_nil_or_concat l with rfl | ⟨m, d, rfl⟩
  · exact (h1 rfl).elim
  · rw [List.concat_eq_append] at h2 h4 ⊢
    refine ⟨m, d, rfl, (lowerAlnum_iff d).2 ⟨h2 d (by simp), ?_⟩⟩
    rw [List.getLast?_append] at h4
    simpa using h4

theorem isLabelSequence_getLast (s : GoString) (h : IsLabelSequence s) :
    ∃ m d, s = m ++ [d] ∧ lowerAlnum d = true := by
  obtain ⟨ls, hne, hls, rfl⟩ := h
  cases ls with
  | nil => exact (hne rfl).elim
  | cons l ls =>
    rw [intercalate_dot_cons]
    rcases List.eq_nil_or_concat ls with rfl | ⟨ms, x, rfl⟩
    · obtain ⟨m, d, rfl, hd⟩ := isLabel_getLast l (hls l (List.mem_cons_self _ _))
      exact ⟨m, d, by simp, hd⟩
    · rw [List.concat_eq_append] at hls ⊢
      obtain ⟨m, d, rfl, hd⟩ := isLabel_getLast x (hls x (by simp))
      refine ⟨l ++ (ms.map fun y => 0x2E :: y).flatten ++ 0x2E :: m, d, ?_, hd⟩
      simp

theorem lowerAlnum_ne_dot (c : Nat) (h : lowerAlnum c = true) : c ≠ 0x2E := by
  simp only [lowerAlnum, Bool.or_eq_true, Bool.and_eq_true, decide_eq_true_eq] at h
  omega

theorem isLabel_ne_dot (l : GoString) (h : IsLabel l) : ∀ c ∈ l, c ≠ 0x2E :=
  fun c hc => (lowerAlnumHyphen_lt c (h.2.1 c hc)).2

/-- No two dots are adjacent in a dot-free text followed by dot-led labels. -/
theorem no_double_dot (ls : List GoString) (hls : ∀ l ∈ ls, IsLabel l) :
    ∀ l : GoString, (∀ c ∈ l, c ≠ 0x2E) →
      ¬ [0x2E, 0x2E] <:+: l ++ (ls.map fun x => 0x2E :: x).flatten := by
  induction ls with
  | nil =>
    intro l
    induction l with
    | nil => intro _ h; simpa using List.IsInfix.length_le h
    | cons c t ih =>
      intro hl h
      simp only [List.map_nil, List.flatten_nil, List.append_nil] at h ih
      rcases List.infix_cons_iff.1 h with h | h
      · rw [List.cons_prefix_cons] at h
        exact hl c (List.mem_cons_self _ _) h.1.symm
      · exact ih (fun x hx => hl x (List.mem_cons_of_mem _ hx)) h
  | cons x xs ihx =>
    have hx : IsLabel x := hls x (List.mem_cons_self _ _)
    have hxs : ∀ l ∈ xs, IsLabel l := fun l hl => hls l (List.mem_cons_of_mem _ hl)
    intro l
    induction l with
    | nil =>
      intro _ h
      simp only [List.map_cons, List.flatten_cons, List.nil_append, List.cons_append] at h
      rcases List.infix_cons_iff.1 h with h | h
      · rw [List.cons_prefix_cons] at h
        obtain ⟨-, h⟩ := h
        cases x with
        | nil => exact hx.1 rfl
        | cons c t =>
          simp only [List.cons_append, List.cons_prefix_cons] at h
          exact isLabel_ne_dot _ hx c (List.mem_cons_self _ _) h.1.symm
      · exact ihx hxs x (isLabel_ne_dot x hx) h
    | cons c t ih =>
      intro hl h
      rw [List.cons_append] at h
      rcases List.infix_cons_iff.1 h with h | h
      · rw [List.cons_prefix_cons] at h
        exact hl c (List.mem_cons_self _ _) h.1.symm
      · exact ih (fun y hy => hl y (List.mem_cons_of_mem _ hy)) h

theorem isLabelSequence_no_double_dot (s : GoString) (h : IsLabelSequence s) :
    ¬ [0x2E, 0x2E] <:+: s := by
  obtain ⟨ls, hne, hls, rfl⟩ := h
  cases ls with
  | nil => exact (hne rfl).elim
  | cons l ls =>
    rw [intercalate_dot_cons]
    exact no_double_dot ls (fun x hx => hls x (List.mem_cons_of_mem _ hx)) l
      (isLabel_ne_dot l (hls l (List.mem_cons_self _ _)))

/-- C1: `validSubdomain s` holds exactly when `s` is a non-empty sequence of
labels joined by single dots, each label non-empty, over `[a-z0-9-]` and
neither beginning nor ending with a hyphen. The match covers the whole string:
a string that ends or begins with a character outside `[a-z0-9]` (a newline or
any other trailing or leading character) is rejected whatever precedes or
follows it. -/
theorem validSubdomain_spec (s : GoString) :
    (validSubdomain s = true ↔
      ∃ ls : List GoString, ls ≠ [] ∧
        (∀ l ∈ ls, l ≠ [] ∧ (∀ c ∈ l, lowerAlnumHyphen c = true) ∧
          l.head? ≠ some 0x2D ∧ l.getLast? ≠ some 0x2D) ∧
        s = List.intercalate [0x2E] ls) ∧
    validSubdomain (s ++ [0x0A]) = false ∧
    ∀ c, lowerAlnum c = false →
      validSubdomain (s ++ [c]) = false ∧ validSubdomain (c :: s) = false := by
  have key : ∀ c, lowerAlnum c = false →
      validSubdomain (s ++ [c]) = false ∧ validSubdomain (c :: s) = false := by
    intro c hc
    constructor
    · rw [← Bool.not_eq_true, validSubdomain_iff]
      intro h
      obtain ⟨m, d, hmd, hd⟩ := isLabelSequence_getLast _ h
      have := List.append_inj' hmd rfl
      simp only [List.cons.injEq, and_true] at this
      rw [this.2, hd] at hc
      exact Bool.noConfusion hc
    · rw [← Bool.not_eq_true, validSubdomain_iff]
      intro h
      obtain ⟨d, t, hdt, hd⟩ := isLabelSequence_head _ h
      simp only [List.cons.injEq] at hdt
      rw [hdt.1, hd] at hc
      exact Bool.noConfusion hc
  exact ⟨validSubdomain_iff s, (key 0x0A (by decide)).1, key⟩

/-- C1 applied to the name `a-b.com` followed or preceded by a newline. -/
theorem validSubdomain_spec_witness :
    lowerAlnum 0x0A = false ∧ validSubdomain (str "a-b.com" ++ [0x0A]) = false ∧
      validSubdomain (0x0A :: str "a-b.com") = false :=
  ⟨by decide, ((validSubdomain_spec (str "a-b.com")).2.2 0x0A (by decide)).1,
    ((validSubdomain_spec (str "a-b.com")).2.2 0x0A (by decide)).2⟩

/-- C9: a string containing an uppercase letter is not a valid subdomain. This
holds for the letters `A`-`Z` and for every character outside ASCII, all of
whose bytes are `0x80` or above. -/
theorem validSubdomain_uppercase (s : GoString)
    (h : ∃ b ∈ s, (0x41 ≤ b ∧ b ≤ 0x5A) ∨ 0x80 ≤ b) : validSubdomain s = false := by
  rw [← Bool.not_eq_true, validSubdomain_iff]
  intro hs
  obtain ⟨b, hb, hu⟩ := h
  rcases isLabelSequence_ascii s hs b hb with h1 | h1
  · simp only [lowerAlnumHyphen, Bool.or_eq_true, Bool.and_eq_true, decide_eq_true_eq,
      beq_iff_eq] at h1
    omega
  · omega

/-- C9 applied to the name `even-Full-tld.style` of the test suite. -/
theorem validSubdomain_uppercase_witness :
    validSubdomain (str "even-Full-tld.style") = false :=
  validSubdomain_uppercase (str "even-Full-tld.style") ⟨0x46, by decide, by decide⟩

/-- C10: a string that is empty, begins or ends with a dot, or contains two
consecutive dots is not a valid subdomain. -/
theorem validSubdomain_empty_label (s : GoString)
    (h : s = [] ∨ s.head? = some 0x2E ∨ s.getLast? = some 0x2E ∨ [0x2E, 0x2E] <:+: s) :
    validSubdomain s = false := by
  rw [← Bool.not_eq_true, validSubdomain_iff]
  intro hs
  rcases h with h | h | h | h
  · obtain ⟨c, t, hct, -⟩ := isLabelSequence_head s hs
    rw [h] at hct
    exact List.noConfusion hct
  · obtain ⟨c, t, rfl, hc⟩ := isLabelSequence_head s hs
    simp only [List.head?_cons, Option.some.injEq] at h
    exact lowerAlnum_ne_dot c hc h
  · obtain ⟨m, d, rfl, hd⟩ := isLabelSequence_getLast s hs
    rw [List.getLast?_append] at h
    simp only [List.getLast?_singleton, Option.or, Option.some.injEq] at h
    exact lowerAlnum_ne_dot d hd h
  · exact isLabelSequence_no_double_dot s hs h

/-- C10 applied to the name `double..period` of the test suite. -/
theorem validSubdomain_empty_label_witness :
    validSubdomain (str "double..period") = false :=
  validSubdomain_empty_label (str "double..period")
    (Or.inr (Or.inr (Or.inr ⟨str "double", str "period", by decide⟩)))

theorem isLowerHex_lowerAlnum (c : Nat) (h : isLowerHex c = true) : lowerAlnum c = true := by
  simp only [isLowerHex, lowerAlnum, Bool.or_eq_true, Bool.and_eq_true,
    decide_eq_true_eq] at h ⊢
  omega

theorem isCanonicalUUID_getD (s : GoString) (h : IsCanonicalUUID s) (i : Nat) (hi : i < 36) :
    lowerAlnumHyphen (s.getD i 0) = true ∧
      ((i = 0 ∨ i = 35) → s.getD i 0 ≠ 0x2D) := by
  have h1 := h.2 i hi
  split_ifs at h1 with hc
  · rw [h1]
    exact ⟨by decide, fun h0 => by omega⟩
  · have h2 := (lowerAlnum_iff _).1 (isLowerHex_lowerAlnum _ h1)
    exact ⟨h2.1, fun _ => h2.2⟩

theorem isCanonicalUUID_isLabel (s : GoString) (h : IsCanonicalUUID s) : IsLabel s := by
  have hlen := h.1
  refine ⟨?_, ?_, ?_, ?_⟩
  · intro h0
    rw [h0] at hlen
    exact absurd hlen (by decide)
  · intro c hc
    obtain ⟨i, hi, rfl⟩ := List.mem_iff_getElem.1 hc
    have := (isCanonicalUUID_getD s h i (by omega)).1
    rwa [List.getD_eq_getElem _ _ hi] at this
  · have := (isCanonicalUUID_getD s h 0 (by omega)).2 (Or.inl rfl)
    rw [List.getD_eq_getElem _ _ (by omega)] at this
    rw [List.head?_eq_getElem?, List.getElem?_eq_getElem (by omega)]
    simpa using this
  · have := (isCanonicalUUID_getD s h 35 (by omega)).2 (Or.inr rfl)
    rw [List.getD_eq_getElem _ _ (by omega)] at this
    rw [List.getLast?_eq_getElem?, List.getElem?_eq_getElem (by omega)]
    simp only [hlen]
    simpa using this

/-- C8: every string in canonical lowercase hyphenated UUID form is a valid
subdomain; the label grammar accepts it as a single label. -/
theorem validSubdomain_canonical_uuid (s : GoString) (h : IsCanonicalUUID s) :
    validSubdomain s = true := by
  rw [validSubdomain_iff]
  refine ⟨[s], by simp, ?_, by simp [List.intercalate]⟩
  intro l hl
  rw [List.mem_singleton.1 hl]
  exact isCanonicalUUID_isLabel s h

/-- C8 applied to the UUID of the test suite. -/
theorem validSubdomain_canonical_uuid_witness :
    IsCanonicalUUID (str "5ec1d7f2-496d-11e9-8646-d663bd873d93") ∧
      validSubdomain (str "5ec1d7f2-496d-11e9-8646-d663bd873d93") = true :=
  ⟨by decide, validSubdomain_canonical_uuid _ (by decide)⟩

/-- C2: `validTXT s` holds exactly when every character of `s` is one of
`A-Za-z0-9_.-` and the number `L` of characters satisfies `(L + 1) mod 44 = 0`,
that is `L = 44 * n - 1` for some `n ≥ 1`; 0, 42 or 44 allowed characters are
rejected and 43 are accepted. -/
theorem validTXT_spec (s : GoString) :
    (validTXT s = true ↔
      (∀ r ∈ runes s, isTXTChar r = true) ∧ (RuneCountInString s + 1) % 44 = 0) ∧
    (validTXT s = true ↔
      (∀ r ∈ runes s, isTXTChar r = true) ∧ ∃ n, 1 ≤ n ∧ RuneCountInString s = 44 * n - 1) ∧
    validTXT (List.replicate 0 0x61) = false ∧ validTXT (List.replicate 42 0x61) = false ∧
    validTXT (List.replicate 44 0x61) = false ∧ validTXT (List.replicate 43 0x61) = true := by
  refine ⟨validTXT_iff s, ?_, by decide, by decide, by decide, by decide⟩
  rw [validTXT_iff]
  refine and_congr_right fun _ => ?_
  constructor
  · intro h
    exact ⟨(RuneCountInString s + 1) / 44, by omega, by omega⟩
  · rintro ⟨n, hn, h⟩
    omega

/-- C3: `validKey k` holds exactly when `k` has 40 characters, each of them a
letter `A-Z`/`a-z`, a digit, a hyphen or an underscore; so a string whose
length is not 40, or that contains a character outside this set, is rejected. -/
theorem validKey_spec (k : GoString) :
    (validKey k = true ↔ RuneCountInString k = 40 ∧ ∀ r ∈ runes k, isKeyChar r = true) ∧
    (RuneCountInString k ≠ 40 → validKey k = false) ∧
    ((∃ r ∈ runes k, isKeyChar r = false) → validKey k = false) := by
  refine ⟨validKey_iff k, ?_, ?_⟩
  · intro h
    rw [← Bool.not_eq_true, validKey_iff]
    exact fun h' => h h'.1
  · rintro ⟨r, hr, h⟩
    rw [← Bool.not_eq_true, validKey_iff]
    intro h'
    rw [h'.2 r hr] at h
    exact Bool.noConfusion h

/-- C3 applied to the 41-character key and to the key with a `#` of the test suite. -/
theorem validKey_spec_witness :
    (RuneCountInString (str "aaaaaaaa-aaa-aaaaaa-aaaaaaaa-aaa_aacaaaaa") ≠ 40 ∧
      validKey (str "aaaaaaaa-aaa-aaaaaa-aaaaaaaa-aaa_aacaaaaa") = false) ∧
    ((∃ r ∈ runes (str "aaaaaaaa-aaa-aaaaaa#aaaaaaaa-aaa_aacaaaa"), isKeyChar r = false) ∧
      validKey (str "aaaaaaaa-aaa-aaaaaa#aaaaaaaa-aaa_aacaaaa") = false) :=
  ⟨⟨by decide, (validKey_spec _).2.1 (by decide)⟩,
    ⟨⟨0x23, by decide, by decide⟩, (validKey_spec _).2.2 ⟨0x23, by decide, by decide⟩⟩⟩

/-! ## Properties of `getValidUsername` -/

theorem getValidUsername_ok (tbl : Nat → Nat) (s : GoString)
    (h : (getValidUsername tbl s).2 = none) :
    stringsToLower tbl s = s ∧ (Parse s).2 = none ∧ (getValidUsername tbl s).1 = (Parse s).1 := by
  unfold getValidUsername at h ⊢
  by_cases hg : stringsToLower tbl s = s
  · by_cases hp : (Parse s).2 = none
    · simp [hg, hp]
    · simp [hg, hp] at h
  · simp [hg] at h

theorem isCanonicalUUID_ascii (s : GoString) (h : IsCanonicalUUID s) :
    ∀ b ∈ s, b < 0x80 ∧ isUpperASCII b = false := by
  intro b hb
  have h1 := (isCanonicalUUID_isLabel s h).2.1 b hb
  simp only [lowerAlnumHyphen, Bool.or_eq_true, Bool.and_eq_true, decide_eq_true_eq,
    beq_iff_eq] at h1
  simp only [isUpperASCII, Bool.and_eq_false_iff, decide_eq_false_iff_not]
  omega

/-- C4: a string containing an uppercase letter is refused by `getValidUsername`
with an error, whether or not the rest is a well-formed UUID. This holds for
the letters `A`-`Z` and for every character outside ASCII, all of whose bytes
are `0x80` or above, whatever the Unicode case tables say. -/
theorem getValidUsername_uppercase (tbl : Nat → Nat) (s : GoString)
    (h : ∃ b ∈ s, isUpperASCII b = true ∨ 0x80 ≤ b) : (getValidUsername tbl s).2 ≠ none := by
  intro hn
  obtain ⟨hg, hp, -⟩ := getValidUsername_ok tbl s hn
  obtain ⟨h1, h2, -⟩ := parse_accepts tbl s hg hp
  obtain ⟨b, hb, hu | hu⟩ := h
  · rw [h2 b hb] at hu
    exact Bool.noConfusion hu
  · have := h1 b hb
    omega

/-- C4 applied to the identifier with an uppercase `E` of the test suite. -/
theorem getValidUsername_uppercase_witness :
    (getValidUsername noCaseMapping (str "5Ec1d7f2-496d-11e9-8646-d663bd873d93")).2 ≠ none :=
  getValidUsername_uppercase noCaseMapping (str "5Ec1d7f2-496d-11e9-8646-d663bd873d93")
    ⟨0x45, by decide, Or.inl (by decide)⟩

/-- C5: on a string in canonical UUID text form `getValidUsername` succeeds, and
rendering the returned value in canonical form gives the string back. -/
theorem getValidUsername_canonical (tbl : Nat → Nat) (s : GoString) (h : IsCanonicalUUID s) :
    (getValidUsername tbl s).2 = none ∧ UUIDString (getValidUsername tbl s).1 = s := by
  have ha := isCanonicalUUID_ascii s h
  have hg : stringsToLower tbl s = s :=
    (stringsToLower_ascii tbl s (fun b hb => (ha b hb).1)).2 (fun b hb => (ha b hb).2)
  have hP : Parse s = parseHyphenated (s ++ []) zeroUUID := by
    simp [Parse, h.1]
  have hc := parseHyphenated_canonical s [] h
  rw [← hP] at hc
  unfold getValidUsername
  simp only [hg, ne_eq, not_true_eq_false, if_false, hc.1]
  exact ⟨trivial, hc.2⟩

/-- C5 applied to the identifier of the test suite. -/
theorem getValidUsername_canonical_witness :
    IsCanonicalUUID (str "5ec1d7f2-496d-11e9-8646-d663bd873d93") ∧
      (getValidUsername noCaseMapping (str "5ec1d7f2-496d-11e9-8646-d663bd873d93")).2 = none ∧
      UUIDString (getValidUsername noCaseMapping (str "5ec1d7f2-496d-11e9-8646-d663bd873d93")).1 =
        str "5ec1d7f2-496d-11e9-8646-d663bd873d93" :=
  ⟨by decide, getValidUsername_canonical noCaseMapping _ (by decide)⟩

/-- C6, as stated, fails: `getValidUsername` returns no error on a canonical
text prefixed with `urn:uuid:`, on one wrapped in braces and on 32 digits
without hyphens, none of which is the canonical rendering of the value
returned. -/
theorem getValidUsername_noncanonical_accepted :
    ((getValidUsername noCaseMapping
        (str "urn:uuid:5ec1d7f2-496d-11e9-8646-d663bd873d93")).2 = none ∧
      str "urn:uuid:5ec1d7f2-496d-11e9-8646-d663bd873d93" ≠
        UUIDString (getValidUsername noCaseMapping
          (str "urn:uuid:5ec1d7f2-496d-11e9-8646-d663bd873d93")).1) ∧
    ((getValidUsername noCaseMapping
        (str "\x7b5ec1d7f2-496d-11e9-8646-d663bd873d93\x7d")).2 = none ∧
      str "\x7b5ec1d7f2-496d-11e9-8646-d663bd873d93\x7d" ≠
        UUIDString (getValidUsername noCaseMapping
          (str "\x7b5ec1d7f2-496d-11e9-8646-d663bd873d93\x7d")).1) ∧
    ((getValidUsername noCaseMapping (str "5ec1d7f2496d11e98646d663bd873d93")).2 = none ∧
      str "5ec1d7f2496d11e98646d663bd873d93" ≠
        UUIDString (getValidUsername noCaseMapping
          (str "5ec1d7f2496d11e98646d663bd873d93")).1) := by
  decide

/-- C6, amended: when `getValidUsername` returns no error the string is ASCII
without uppercase letters and is, for the value returned, one of the four forms
that `uuid.Parse` decodes: the canonical 36-character rendering, that rendering
after `urn:uuid:`, that rendering between one leading and one trailing
character, or the 32 lowercase digits without hyphens. The empty string is
rejected. -/
theorem getValidUsername_accepted_forms (tbl : Nat → Nat) (s : GoString)
    (h : (getValidUsername tbl s).2 = none) :
    (∀ b ∈ s, b < 0x80 ∧ isUpperASCII b = false) ∧
      IsAcceptedForm s (getValidUsername tbl s).1 ∧
      (getValidUsername tbl []).2 = some (GoError.invalidLength 0) := by
  obtain ⟨hg, hp, hv⟩ := getValidUsername_ok tbl s h
  obtain ⟨h1, h2, h3⟩ := parse_accepts tbl s hg hp
  rw [hv]
  exact ⟨fun b hb => ⟨h1 b hb, h2 b hb⟩, h3, rfl⟩

/-- C6, amended, applied to the identifier of the test suite after `urn:uuid:`. -/
theorem getValidUsername_accepted_forms_witness :
    (getValidUsername noCaseMapping
        (str "urn:uuid:5ec1d7f2-496d-11e9-8646-d663bd873d93")).2 = none ∧
      IsAcceptedForm (str "urn:uuid:5ec1d7f2-496d-11e9-8646-d663bd873d93")
        (getValidUsername noCaseMapping
          (str "urn:uuid:5ec1d7f2-496d-11e9-8646-d663bd873d93")).1 :=
  ⟨by decide, (getValidUsername_accepted_forms noCaseMapping _ (by decide)).2.1⟩

/-- C7: whenever `getValidUsername` returns an error, from the case guard or
from the parser, the identifier returned with it is the zero value
`uuid.UUID{}`. -/
theorem getValidUsername_error_zero (tbl : Nat → Nat) (s : GoString)
    (h : (getValidUsername tbl s).2 ≠ none) : (getValidUsername tbl s).1 = zeroUUID := by
  unfold getValidUsername at h ⊢
  by_cases hg : stringsToLower tbl s = s
  · by_cases hp : (Parse s).2 = none
    · simp [hg, hp] at h
    · simp [hg, hp]
  · simp [hg]

/-- C7 applied to a text whose last digits are not hexadecimal: the parser has
decoded the first bytes when it fails, and the zero value is returned. -/
theorem getValidUsername_error_zero_witness :
    (getValidUsername noCaseMapping (str "5ec1d7f2-496d-11e9-8646-d663bd873dg3")).2 ≠ none ∧
      (Parse (str "5ec1d7f2-496d-11e9-8646-d663bd873dg3")).1 ≠ zeroUUID ∧
      (getValidUsername noCaseMapping (str "5ec1d7f2-496d-11e9-8646-d663bd873dg3")).1 =
        zeroUUID :=
  ⟨by decide, by decide, getValidUsername_error_zero noCaseMapping _ (by decide)⟩

/-! ## Further properties of `validTXT` and `validKey` -/

/-- C11: `validTXT` accepts the string of 87 letters `a`, which is not made of
groups of 43 characters separated by single dots: it holds no dot and is longer
than one group. -/
theorem validTXT_accepts_ungrouped :
    validTXT (List.replicate 87 0x61) = true ∧ ¬ IsGroupSequence (List.replicate 87 0x61) := by
  refine ⟨by decide, ?_⟩
  rintro ⟨gs, hne, hg, hs⟩
  cases gs with
  | nil => exact hne rfl
  | cons g rest =>
    cases rest with
    | nil =>
      have h1 := hg g (List.mem_cons_self _ _)
      have h2 : List.replicate 87 0x61 = g := by simpa [List.intercalate] using hs
      rw [← h2] at h1
      exact absurd h1 (by decide)
    | cons g2 rest2 =>
      rw [intercalate_dot_cons] at hs
      have hmem : (0x2E : Nat) ∈ List.replicate 87 0x61 := by
        rw [hs]
        simp
      have := List.eq_of_mem_replicate hmem
      omega

/-- C12: every string of 87 characters, all of them in `[A-Za-z0-9_.-]`, is
accepted by `validTXT`, wherever its dots are and even if it has none. -/
theorem validTXT_87 (s : GoString) (hlen : RuneCountInString s = 87)
    (hch : ∀ r ∈ runes s, isTXTChar r = true) : validTXT s = true := by
  rw [validTXT_iff]
  exact ⟨hch, by rw [hlen]⟩

/-- C12 applied to 87 characters with dots at the wrong places and to 87
characters without any dot. -/
theorem validTXT_87_witness :
    validTXT (List.replicate 3 0x2E ++ List.replicate 80 0x61 ++ List.replicate 4 0x2E) = true ∧
      validTXT (List.replicate 87 0x62) = true :=
  ⟨validTXT_87 _ (by decide) (by decide), validTXT_87 _ (by decide) (by decide)⟩

/-- C17: both validators follow the pattern of filtering and comparing counts.
`validTXT s` is the conjunction of `count (strip s) = count s` and
`(count s + 1) mod 44 = 0`, with `strip` removing the characters outside
`[A-Za-z0-9_.-]`; `validKey s` is the conjunction of
`count (sanitizeString s) = count s` and `count s = 40`; and the stripped string
equals the string exactly when their counts are equal. -/
theorem validTXT_validKey_pattern (s : GoString) :
    validTXT s = decide (RuneCountInString (removeClassRuns notTXTChar s) = RuneCountInString s ∧
      (RuneCountInString s + 1) % 44 = 0) ∧
    validKey s = decide (RuneCountInString (sanitizeString s) = RuneCountInString s ∧
      RuneCountInString s = 40) ∧
    (s = removeClassRuns notTXTChar s ↔
      RuneCountInString (removeClassRuns notTXTChar s) = RuneCountInString s) := by
  have hp : ∀ r, notTXTChar r = false → r < 0x80 := by
    intro r hr
    exact isTXTChar_lt r (by simpa [notTXTChar] using hr)
  have hcount : s = removeClassRuns notTXTChar s ↔
      RuneCountInString (removeClassRuns notTXTChar s) = RuneCountInString s := by
    rw [removeClassRuns_eq_self_iff, runeCount_removeClassRuns _ hp]
    unfold RuneCountInString
    rw [List.filter_length_eq_length]
    simp
  refine ⟨?_, ?_, hcount⟩
  · rw [Bool.eq_iff_iff, decide_eq_true_iff, ← hcount, removeClassRuns_eq_self_iff, validTXT_iff]
    simp [notTXTChar]
  · rw [Bool.eq_iff_iff, decide_eq_true_iff]
    unfold validKey
    simp only [Bool.if_false_right, Bool.and_true, decide_eq_true_eq]
    constructor
    · rintro ⟨h1, h2⟩
      exact ⟨by rw [h1, h2], h1⟩
    · rintro ⟨h1, h2⟩
      exact ⟨h2, by rw [h1, h2]⟩

/-- C19: two valid TXT payloads joined with a single dot form a valid payload,
while their plain concatenation is never valid. -/
theorem validTXT_join (a b : GoString) (ha : validTXT a = true) (hb : validTXT b = true) :
    validTXT (a ++ [0x2E] ++ b) = true ∧ validTXT (a ++ b) = false := by
  rw [validTXT_iff_bytes] at ha hb
  constructor
  · rw [validTXT_iff_bytes]
    constructor
    · intro x hx
      simp only [List.mem_append, List.mem_singleton] at hx
      rcases hx with (hx | hx) | hx
      · exact ha.1 x hx
      · rw [hx]; decide
      · exact hb.1 x hx
    · simp only [List.length_append, List.length_singleton]
      omega
  · rw [← Bool.not_eq_true, validTXT_iff_bytes]
    rintro ⟨-, h⟩
    simp only [List.length_append] at h
    omega

/-- C19 applied to two payloads of 43 letters. -/
theorem validTXT_join_witness :
    validTXT (List.replicate 43 0x61) = true ∧ validTXT (List.replicate 43 0x62) = true ∧
      validTXT (List.replicate 43 0x61 ++ [0x2E] ++ List.replicate 43 0x62) = true ∧
      validTXT (List.replicate 43 0x61 ++ List.replicate 43 0x62) = false :=
  ⟨by decide, by decide, validTXT_join _ _ (by decide) (by decide)⟩


/-- C15: the case guard runs before parsing and has its own error. When
`strings.ToLower(s) != s` the error is the fixed "need lowercase username"
error, whatever the parser would say of `s`; when `strings.ToLower(s) = s` and
the call fails, the error is the parser's own, which is never that of the
guard. -/
theorem getValidUsername_errors (tbl : Nat → Nat) (s : GoString) :
    (stringsToLower tbl s ≠ s →
      (getValidUsername tbl s).2 = some GoError.needLowercase) ∧
    (stringsToLower tbl s = s → (getValidUsername tbl s).2 ≠ none →
      (getValidUsername tbl s).2 = (Parse s).2 ∧
        (getValidUsername tbl s).2 ≠ some GoError.needLowercase) := by
  unfold getValidUsername
  constructor
  · intro h
    simp [h]
  · intro h hne
    by_cases hp : (Parse s).2 = none
    · simp [h, hp] at hne
    · simp only [h, ne_eq, not_true_eq_false, if_false, hp, not_false_eq_true, if_true]
      exact ⟨trivial, Parse_ne_needLowercase s⟩

/-- C15 applied to a well-formed UUID with an uppercase digit, to an ill-formed
text with an uppercase letter, and to two lowercase texts the parser refuses. -/
theorem getValidUsername_errors_witness :
    (getValidUsername noCaseMapping (str "5Ec1d7f2-496d-11e9-8646-d663bd873d93")).2 =
        some GoError.needLowercase ∧
      (getValidUsername noCaseMapping (str "Xyz")).2 = some GoError.needLowercase ∧
      (getValidUsername noCaseMapping (str "a-97455b-52cc-4569-90c8-7a4b97c6eba8")).2 =
        (Parse (str "a-97455b-52cc-4569-90c8-7a4b97c6eba8")).2 ∧
      (getValidUsername noCaseMapping (str "")).2 = (Parse (str "")).2 :=
  ⟨(getValidUsername_errors noCaseMapping _).1 (by decide),
    (getValidUsername_errors noCaseMapping _).1 (by decide),
    ((getValidUsername_errors noCaseMapping _).2 (by decide) (by decide)).1,
    ((getValidUsername_errors noCaseMapping _).2 (by decide) (by decide)).1⟩


/-! ## Joining and splitting label sequences -/

theorem split_at_dot (ls : List GoString) (hls : ∀ l ∈ ls, IsLabel l) :
    ∀ (l a b : GoString), (∀ c ∈ l, c ≠ 0x2E) →
      l ++ (ls.map fun x => 0x2E :: x).flatten = a ++ 0x2E :: b →
      ∃ ls1 m ls2, ls = ls1 ++ m :: ls2 ∧ a = l ++ (ls1.map fun x => 0x2E :: x).flatten ∧
        b = m ++ (ls2.map fun x => 0x2E :: x).flatten := by
  induction ls with
  | nil =>
    intro l a b hl h
    simp only [List.map_nil, List.flatten_nil, List.append_nil] at h
    exact absurd rfl (hl 0x2E (by rw [h]; simp))
  | cons x xs ih =>
    intro l a b hl h
    have hx : IsLabel x := hls x (List.mem_cons_self _ _)
    have hxs : ∀ y ∈ xs, IsLabel y := fun y hy => hls y (List.mem_cons_of_mem _ hy)
    simp only [List.map_cons, List.flatten_cons, List.cons_append] at h
    have hbase : ∀ b', 0x2E :: (x ++ (xs.map fun y => 0x2E :: y).flatten) = 0x2E :: b' →
        ∃ ls1 m ls2, x :: xs = ls1 ++ m :: ls2 ∧
          l = l ++ (ls1.map fun y => 0x2E :: y).flatten ∧
          b' = m ++ (ls2.map fun y => 0x2E :: y).flatten := by
      intro b' hb
      simp only [List.cons.injEq, true_and] at hb
      exact ⟨[], x, xs, rfl, by simp, hb.symm⟩
    rcases List.append_eq_append_iff.1 h with ⟨a', rfl, h2⟩ | ⟨c', h1, h2⟩
    · cases a' with
      | nil =>
        obtain ⟨ls1, m, ls2, e1, e2, e3⟩ := hbase b (by simpa using h2)
        exact ⟨ls1, m, ls2, e1, by simpa using e2, e3⟩
      | cons d a'' =>
        simp only [List.cons_append, List.cons.injEq] at h2
        obtain ⟨hd, h3⟩ := h2
        obtain ⟨ls1, m, ls2, e1, e2, e3⟩ := ih hxs x a'' b (isLabel_ne_dot x hx) h3
        refine ⟨x :: ls1, m, ls2, by rw [e1]; rfl, ?_, e3⟩
        rw [e2, ← hd]
        simp
    · cases c' with
      | nil =>
        obtain ⟨ls1, m, ls2, e1, e2, e3⟩ := hbase b (by simpa using h2.symm)
        refine ⟨ls1, m, ls2, e1, ?_, e3⟩
        rw [List.append_nil] at h1
        rw [← h1]
        exact e2
      | cons c cs =>
        simp only [List.cons_append, List.cons.injEq] at h2
        exact absurd h2.1.symm (hl c (by rw [h1]; simp))

/-- A label sequence cut at one of its dots gives two label sequences, and two
label sequences joined by a dot give one. -/
theorem isLabelSequence_join_iff (a b : GoString) :
    IsLabelSequence (a ++ [0x2E] ++ b) ↔ IsLabelSequence a ∧ IsLabelSequence b := by
  constructor
  · rintro ⟨ls, hne, hls, hs⟩
    cases ls with
    | nil => exact (hne rfl).elim
    | cons l ls =>
      rw [intercalate_dot_cons] at hs
      have hs' : l ++ (ls.map fun x => 0x2E :: x).flatten = a ++ 0x2E :: b := by
        rw [← hs]; simp
      obtain ⟨ls1, m, ls2, e1, e2, e3⟩ :=
        split_at_dot ls (fun x hx => hls x (List.mem_cons_of_mem _ hx)) l a b
          (isLabel_ne_dot l (hls l (List.mem_cons_self _ _))) hs'
      subst e1
      constructor
      · refine ⟨l :: ls1, by simp, ?_, by rw [intercalate_dot_cons]; exact e2⟩
        intro x hx
        exact hls x (by
          rcases List.mem_cons.1 hx with h | h
          · simp [h]
          · simp [h])
      · refine ⟨m :: ls2, by simp, ?_, by rw [intercalate_dot_cons]; exact e3⟩
        intro x hx
        exact hls x (by
          rcases List.mem_cons.1 hx with h | h
          · simp [h]
          · simp [h])
  · rintro ⟨⟨la, hna, hla, rfl⟩, ⟨lb, hnb, hlb, rfl⟩⟩
    cases la with
    | nil => exact (hna rfl).elim
    | cons l ls =>
      cases lb with
      | nil => exact (hnb rfl).elim
      | cons m ms =>
        refine ⟨l :: (ls ++ m :: ms), by simp, ?_, ?_⟩
        · intro x hx
          simp only [List.mem_cons, List.mem_append] at hx
          rcases hx with rfl | hx | rfl | hx
          · exact hla _ (List.mem_cons_self _ _)
          · exact hla _ (List.mem_cons_of_mem _ hx)
          · exact hlb _ (List.mem_cons_self _ _)
          · exact hlb _ (List.mem_cons_of_mem _ hx)
        · simp only [intercalate_dot_cons, List.map_append, List.flatten_append, List.map_cons,
            List.flatten_cons, List.append_assoc, List.cons_append, List.singleton_append,
            List.nil_append]


/-! ## The UUID fallback of `validSubdomain` -/

theorem isLabel_of_lowerAlnum (s : GoString) (hne : s ≠ [])
    (h : ∀ b ∈ s, lowerAlnum b = true) : IsLabel s := by
  refine ⟨hne, fun c hc => ((lowerAlnum_iff c).1 (h c hc)).1, ?_, ?_⟩
  · cases s with
    | nil => exact (hne rfl).elim
    | cons c t =>
      have := ((lowerAlnum_iff c).1 (h c (List.mem_cons_self _ _))).2
      simpa using this
  · rcases List.eq_nil_or_concat s with rfl | ⟨m, d, rfl⟩
    · exact (hne rfl).elim
    · rw [List.concat_eq_append] at h ⊢
      have := ((lowerAlnum_iff d).1 (h d (by simp))).2
      rw [List.getLast?_append]
      simpa using this

/-- What `uuid.Parse` accepts in its 36-byte and 32-byte forms, when it holds no
uppercase letter, is matched by the pattern of `validSubdomain`. -/
theorem validSubdomain_of_parse (s : GoString) (hp : (Parse s).2 = none)
    (hu : ∀ b ∈ s, isUpperASCII b = false) (hl : s.length = 36 ∨ s.length = 32) :
    validSubdomain s = true := by
  rw [validSubdomain_iff]
  refine ⟨[s], by simp, ?_, by simp [List.intercalate]⟩
  intro l hl'
  rw [List.mem_singleton.1 hl']
  rcases hl with h36 | h32
  · have hP : Parse s = parseHyphenated (s ++ []) zeroUUID := by
      simp [Parse, h36]
    rw [hP] at hp
    exact isCanonicalUUID_isLabel s (hyphenated_canonical s [] h36 hp hu)
  · have hP : Parse s = parseRawLoop s (List.range 16) zeroUUID := by
      simp [Parse, h32]
    rw [hP] at hp
    have hraw := raw_lowerHex s hp
    refine isLabel_of_lowerAlnum s ?_ ?_
    · intro h0
      rw [h0] at h32
      exact absurd h32 (by decide)
    · refine forall_mem_of_forall_getD s 32 h32 (fun b => lowerAlnum b = true) ?_
      intro i hi
      exact isLowerHex_lowerAlnum _
        ((hraw i hi).2 (forall_getD_of_forall_mem s _ hu i (by omega)))

theorem parse_length (s : GoString) (hp : (Parse s).2 = none) :
    s.length = 36 ∨ s.length = 45 ∨ s.length = 38 ∨ s.length = 32 := by
  by_contra h
  simp only [not_or] at h
  obtain ⟨h1, h2, h3, h4⟩ := h
  have : (Parse s).2 = some (GoError.invalidLength s.length) := by
    simp [Parse, h1, h2, h3, h4]
  rw [this] at hp
  exact absurd hp (by simp)

theorem validSubdomain_eq_false_of_mem (s : GoString) (b : Nat) (hb : b ∈ s)
    (h1 : lowerAlnumHyphen b = false) (h2 : b ≠ 0x2E) : validSubdomain s = false := by
  rw [← Bool.not_eq_true, validSubdomain_iff]
  intro hs
  rcases isLabelSequence_ascii s hs b hb with h | h
  · rw [h1] at h
    exact Bool.noConfusion h
  · exact h2 h

theorem fallback_of_parse (s : GoString) (hp : (Parse s).2 = none) :
    validSubdomainWithFallback s = true := by
  unfold validSubdomainWithFallback
  split_ifs <;> rfl

theorem fallback_of_not_parse (s : GoString) (hp : (Parse s).2 ≠ none) :
    validSubdomainWithFallback s = validSubdomain s := by
  unfold validSubdomainWithFallback validSubdomain
  simp only [hp, if_false]


/-! ## `ValidEntries` -/

theorem validEntries_foldl (parses : GoString → Bool) (c : List GoString) :
    ∀ acc : List GoString,
      c.foldl (fun valid v => if parses v then valid ++ [v] else valid) acc =
        acc ++ c.filter parses := by
  induction c with
  | nil => intro acc; simp
  | cons v vs ih =>
    intro acc
    simp only [List.foldl_cons, ih, List.filter_cons]
    split_ifs <;> simp


/-! ## Joining subdomains, and the UUID fallback -/

/-- C18: a string `a + "." + b` is a valid subdomain exactly when `a` and `b`
both are. -/
theorem validSubdomain_join (a b : GoString) :
    validSubdomain (a ++ [0x2E] ++ b) = true ↔
      validSubdomain a = true ∧ validSubdomain b = true := by
  rw [validSubdomain_iff, validSubdomain_iff, validSubdomain_iff]
  exact isLabelSequence_join_iff a b


/-- C16, as stated, fails: `uuid.Parse` accepts a UUID written with uppercase
digits and one written after `urn:uuid:`, which the pattern does not match, so
the variant with the fallback accepts them and `validSubdomain` does not. -/
theorem validSubdomain_fallback_differs :
    ((Parse (str "5EC1D7F2-496D-11E9-8646-D663BD873D93")).2 = none ∧
      validSubdomainWithFallback (str "5EC1D7F2-496D-11E9-8646-D663BD873D93") = true ∧
      validSubdomain (str "5EC1D7F2-496D-11E9-8646-D663BD873D93") = false) ∧
    ((Parse (str "urn:uuid:5ec1d7f2-496d-11e9-8646-d663bd873d93")).2 = none ∧
      validSubdomainWithFallback (str "urn:uuid:5ec1d7f2-496d-11e9-8646-d663bd873d93") = true ∧
      validSubdomain (str "urn:uuid:5ec1d7f2-496d-11e9-8646-d663bd873d93") = false) :=
  ⟨⟨by decide, fallback_of_parse _ (by decide),
      validSubdomain_eq_false_of_mem _ 0x45 (by decide) (by decide) (by decide)⟩,
    ⟨by decide, fallback_of_parse _ (by decide),
      validSubdomain_eq_false_of_mem _ 0x3A (by decide) (by decide) (by decide)⟩⟩

/-- C16, amended: a string without uppercase letters that `uuid.Parse` accepts
in its 36-byte hyphenated form or its 32-digit form is matched by the pattern;
so the fallback changes nothing on the strings without uppercase letters whose
length is neither 45 (the `urn:uuid:` form) nor 38 (the wrapped form). -/
theorem validSubdomain_fallback_redundant (s : GoString)
    (hu : ∀ b ∈ s, isUpperASCII b = false) (h45 : s.length ≠ 45) (h38 : s.length ≠ 38) :
    ((Parse s).2 = none → validSubdomain s = true) ∧
      validSubdomainWithFallback s = validSubdomain s := by
  have key : (Parse s).2 = none → validSubdomain s = true := by
    intro hp
    rcases parse_length s hp with h | h | h | h
    · exact validSubdomain_of_parse s hp hu (Or.inl h)
    · exact absurd h h45
    · exact absurd h h38
    · exact validSubdomain_of_parse s hp hu (Or.inr h)
  refine ⟨key, ?_⟩
  by_cases hp : (Parse s).2 = none
  · rw [key hp, fallback_of_parse s hp]
  · exact fallback_of_not_parse s hp

/-- C16, amended, applied to the UUID of the test suite without its hyphens. -/
theorem validSubdomain_fallback_redundant_witness :
    (Parse (str "5ec1d7f2496d11e98646d663bd873d93")).2 = none ∧
      validSubdomain (str "5ec1d7f2496d11e98646d663bd873d93") = true ∧
      validSubdomainWithFallback (str "5ec1d7f2496d11e98646d663bd873d93") =
        validSubdomain (str "5ec1d7f2496d11e98646d663bd873d93") :=
  ⟨by decide,
    (validSubdomain_fallback_redundant _ (by decide) (by decide) (by decide)).1 (by decide),
    (validSubdomain_fallback_redundant _ (by decide) (by decide) (by decide)).2⟩


/-- C14: `ValidEntries` returns exactly the entries that parse, unmodified and
in their original order: it is the list filtered by the parser and a
sub-sequence of the input; an entry is in the result exactly when it is in the
input and parses; and the result is empty exactly when no entry parses, as for
the empty list. -/
theorem validEntries_spec (parses : GoString → Bool) (l : List GoString) :
    ValidEntries parses l = l.filter parses ∧
    List.Sublist (ValidEntries parses l) l ∧
    (∀ v, v ∈ ValidEntries parses l ↔ v ∈ l ∧ parses v = true) ∧
    (ValidEntries parses l = [] ↔ ∀ v ∈ l, parses v = false) ∧
    ValidEntries parses [] = [] := by
  have h : ValidEntries parses l = l.filter parses := by
    unfold ValidEntries
    rw [validEntries_foldl]
    rfl
  refine ⟨h, ?_, ?_, ?_, rfl⟩
  · rw [h]; exact List.filter_sublist l
  · intro v; rw [h]; exact List.mem_filter
  · rw [h, List.filter_eq_nil_iff]
    simp


/-! ## The base64 encoding of bcrypt -/

theorem bcryptAlphabet_getD : ∀ i < 64,
    bcryptAlphabet.getD i 0 ∈ bcryptAlphabet ∧ bcryptAlphabet.getD i 0 ≠ 0x3D ∧
      bcryptAlphabet.getD i 0 ≠ 0 := by
  decide

theorem encodeChar_spec (v : Nat) :
    encodeChar v ∈ bcryptAlphabet ∧ (encodeChar v == 0x3D) = false ∧ encodeChar v ≠ 0 := by
  have h := bcryptAlphabet_getD (v % 64) (Nat.mod_lt _ (by decide))
  unfold encodeChar
  exact ⟨h.1, by simpa using h.2.1, h.2.2⟩

/-- The encoding of 23 bytes is 31 characters of the alphabet. -/
theorem base64Encode_23 (l : List Nat) (hl0 : l.length = 23) :
    (base64Encode l).length = 31 ∧ ∀ c ∈ base64Encode l, c ∈ bcryptAlphabet := by
  obtain ⟨c0, s1, rfl, hl1⟩ := length_succ_exists hl0
  obtain ⟨c1, s2, rfl, hl2⟩ := length_succ_exists hl1
  obtain ⟨c2, s3, rfl, hl3⟩ := length_succ_exists hl2
  obtain ⟨c3, s4, rfl, hl4⟩ := length_succ_exists hl3
  obtain ⟨c4, s5, rfl, hl5⟩ := length_succ_exists hl4
  obtain ⟨c5, s6, rfl, hl6⟩ := length_succ_exists hl5
  obtain ⟨c6, s7, rfl, hl7⟩ := length_succ_exists hl6
  obtain ⟨c7, s8, rfl, hl8⟩ := length_succ_exists hl7
  obtain ⟨c8, s9, rfl, hl9⟩ := length_succ_exists hl8
  obtain ⟨c9, s10, rfl, hl10⟩ := length_succ_exists hl9
  obtain ⟨c10, s11, rfl, hl11⟩ := length_succ_exists hl10
  obtain ⟨c11, s12, rfl, hl12⟩ := length_succ_exists hl11
  obtain ⟨c12, s13, rfl, hl13⟩ := length_succ_exists hl12
  obtain ⟨c13, s14, rfl, hl14⟩ := length_succ_exists hl13
  obtain ⟨c14, s15, rfl, hl15⟩ := length_succ_exists hl14
  obtain ⟨c15, s16, rfl, hl16⟩ := length_succ_exists hl15
  obtain ⟨c16, s17, rfl, hl17⟩ := length_succ_exists hl16
  obtain ⟨c17, s18, rfl, hl18⟩ := length_succ_exists hl17
  obtain ⟨c18, s19, rfl, hl19⟩ := length_succ_exists hl18
  obtain ⟨c19, s20, rfl, hl20⟩ := length_succ_exists hl19
  obtain ⟨c20, s21, rfl, hl21⟩ := length_succ_exists hl20
  obtain ⟨c21, s22, rfl, hl22⟩ := length_succ_exists hl21
  obtain ⟨c22, s23, rfl, hl23⟩ := length_succ_exists hl22
  have hnil : s23 = [] := List.length_eq_zero.1 hl23
  subst hnil
  clear hl0 hl1 hl2 hl3 hl4 hl5 hl6 hl7 hl8 hl9 hl10 hl11 hl12 hl13 hl14 hl15 hl16 hl17 hl18 hl19 hl20 hl21 hl22 hl23
  simp only [base64Encode, encodeGroups, List.reverse_cons, List.reverse_nil, List.nil_append,
    List.cons_append, List.append_assoc, List.singleton_append]
  simp only [List.dropWhile_cons, beq_self_eq_true, if_true, (encodeChar_spec _).2.1,
    Bool.false_eq_true, if_false]
  simp only [List.reverse_cons, List.reverse_nil, List.nil_append, List.cons_append,
    List.append_assoc, List.singleton_append]
  refine ⟨rfl, ?_⟩
  intro c hc
  simp only [List.mem_cons, List.mem_singleton, List.not_mem_nil, or_false] at hc
  rcases hc with rfl | rfl | rfl | rfl | rfl | rfl | rfl | rfl | rfl | rfl | rfl | rfl | rfl | rfl | rfl | rfl | rfl | rfl | rfl | rfl | rfl | rfl | rfl | rfl | rfl | rfl | rfl | rfl | rfl | rfl | rfl <;>
    exact (encodeChar_spec _).1

theorem cipherData_length (data : List Nat) : ((cipherData data).take 23).length = 23 := by
  simp [cipherData]


/-! ## The rendering `Hash` -/

theorem length_copyAt (arr src : List Nat) (n : Nat) : (copyAt arr n src).length = arr.length := by
  simp [copyAt]

theorem getD_copyAt (arr src : List Nat) (n i : Nat) (hi : i < arr.length) :
    (copyAt arr n src).getD i 0 =
      if n ≤ i ∧ i < n + src.length then src.getD (i - n) 0 else arr.getD i 0 := by
  rw [List.getD_eq_getElem _ _ (by rw [length_copyAt]; exact hi)]
  simp [copyAt]

theorem getD_set_ne (l : List Nat) (k v i : Nat) (h : i ≠ k) :
    (l.set k v).getD i 0 = l.getD i 0 := by
  simp [List.getD_eq_getElem?_getD, List.getElem?_set_ne (Ne.symm h)]

theorem getD_take_lt (l : List Nat) (m i : Nat) (h : i < m) :
    (l.take m).getD i 0 = l.getD i 0 := by
  simp [List.getD_eq_getElem?_getD, List.getElem?_take_of_lt h]

theorem getD_replicate_zero (n i : Nat) : (List.replicate n 0).getD i 0 = 0 := by
  simp only [List.getD_eq_getElem?_getD, List.getElem?_replicate]
  split_ifs <;> rfl

theorem sprintf02d_length (c : Nat) (h1 : 4 ≤ c) (h2 : c ≤ 31) : (sprintf02d c).length = 2 := by
  interval_cases c <;> decide

/-- The bytes of the rendering that come after the salt are the first 31 bytes
of the hash, followed by zero bytes when the hash has fewer. -/
theorem hash_getD_tail (p : Hashed) (hs : p.salt.length = 22)
    (hc : (sprintf02d p.cost).length = 2) (j : Nat) (hj : j < 31) :
    p.Hash.getD ((if p.minor ≠ 0 then 3 else 2) + 26 + j) 0 =
      if j < p.hash.length then p.hash.getD j 0 else 0 := by
  by_cases hm : p.minor ≠ 0
  · have hH : p.Hash = (copyAt (copyAt ((copyAt
        (((((List.replicate 60 0).set 0 0x24).set 1 p.major).set 2 p.minor).set 3 0x24) (3 + 1)
          (sprintf02d p.cost)).set (3 + 3) 0x24) (3 + 4) p.salt) (3 + 4 + 22) p.hash).take
            (3 + 4 + 22 + 31) := by
      simp only [Hashed.Hash, if_pos hm]
    rw [hH, if_pos hm]
    rw [getD_take_lt _ _ _ (by omega),
      getD_copyAt _ _ _ _ (by
        simp only [length_copyAt, List.length_set, List.length_replicate]; omega)]
    have e : 3 + 26 + j - (3 + 4 + 22) = j := by omega
    by_cases hjl : j < p.hash.length
    · rw [if_pos ⟨by omega, by omega⟩, if_pos hjl, e]
    · rw [if_neg (by omega), if_neg hjl,
        getD_copyAt _ _ _ _ (by
          simp only [length_copyAt, List.length_set, List.length_replicate]; omega),
        if_neg (by omega), getD_set_ne _ _ _ _ (by omega),
        getD_copyAt _ _ _ _ (by
          simp only [List.length_set, List.length_replicate]; omega),
        if_neg (by omega),
        getD_set_ne _ _ _ _ (by omega), getD_set_ne _ _ _ _ (by omega),
        getD_set_ne _ _ _ _ (by omega), getD_set_ne _ _ _ _ (by omega),
        getD_replicate_zero]
  · have hH : p.Hash = (copyAt (copyAt ((copyAt
        ((((List.replicate 60 0).set 0 0x24).set 1 p.major).set 2 0x24) (2 + 1)
          (sprintf02d p.cost)).set (2 + 3) 0x24) (2 + 4) p.salt) (2 + 4 + 22) p.hash).take
            (2 + 4 + 22 + 31) := by
      simp only [Hashed.Hash, if_neg hm]
    rw [hH, if_neg hm]
    rw [getD_take_lt _ _ _ (by omega),
      getD_copyAt _ _ _ _ (by
        simp only [length_copyAt, List.length_set, List.length_replicate]; omega)]
    have e : 2 + 26 + j - (2 + 4 + 22) = j := by omega
    by_cases hjl : j < p.hash.length
    · rw [if_pos ⟨by omega, by omega⟩, if_pos hjl, e]
    · rw [if_neg (by omega), if_neg hjl,
        getD_copyAt _ _ _ _ (by
          simp only [length_copyAt, List.length_set, List.length_replicate]; omega),
        if_neg (by omega), getD_set_ne _ _ _ _ (by omega),
        getD_copyAt _ _ _ _ (by
          simp only [List.length_set, List.length_replicate]; omega),
        if_neg (by omega),
        getD_set_ne _ _ _ _ (by omega), getD_set_ne _ _ _ _ (by omega),
        getD_set_ne _ _ _ _ (by omega),
        getD_replicate_zero]

/-- Two lists of the same length with the same bytes are equal. -/
theorem ext_getD (l1 l2 : List Nat) (hl : l1.length = l2.length)
    (h : ∀ i < l1.length, l1.getD i 0 = l2.getD i 0) : l1 = l2 := by
  refine List.ext_getElem hl fun i h1 h2 => ?_
  have := h i h1
  rwa [List.getD_eq_getElem _ _ h1, List.getD_eq_getElem _ _ h2] at this

/-- Of a slice copied at position `m`, the first `m + k` bytes of the result
show only the first `k` bytes. -/
theorem copyAt_take (arr src : List Nat) (m k : Nat) :
    (copyAt arr m src).take (m + k) = (copyAt arr m (src.take k)).take (m + k) := by
  refine ext_getD _ _ (by simp only [List.length_take, length_copyAt]) fun i hi => ?_
  rw [List.length_take, length_copyAt] at hi
  rw [getD_take_lt _ _ _ (by omega), getD_take_lt _ _ _ (by omega),
    getD_copyAt _ _ _ _ (by omega), getD_copyAt _ _ _ _ (by omega), List.length_take]
  by_cases h1 : m ≤ i ∧ i < m + src.length
  · rw [if_pos h1, if_pos ⟨h1.1, by omega⟩, getD_take_lt _ _ _ (by omega)]
  · rw [if_neg h1, if_neg (by omega)]

/-- The rendering shows only the first 31 bytes of the hash. -/
theorem hash_take (p : Hashed) :
    p.Hash = Hashed.Hash (Hashed.mk (p.hash.take 31) p.salt p.cost p.major p.minor) := by
  simp only [Hashed.Hash]
  exact copyAt_take _ _ _ _

/-- The rendering of a parsed hash equals the rendering with the 31 characters
just computed exactly when the parsed hash begins with these characters. -/
theorem hash_eq_iff (p : Hashed) (other : GoString) (hs : p.salt.length = 22)
    (hc : (sprintf02d p.cost).length = 2) (ho : other.length = 31)
    (hz : ∀ c ∈ other, c ∈ bcryptAlphabet) :
    p.Hash = Hashed.Hash (Hashed.mk other p.salt p.cost p.major p.minor) ↔
      p.hash.take 31 = other := by
  constructor
  · intro h
    have key : ∀ j < 31, j < p.hash.length ∧ p.hash.getD j 0 = other.getD j 0 := by
      intro j hj
      have h1 := hash_getD_tail p hs hc j hj
      have h2 := hash_getD_tail (Hashed.mk other p.salt p.cost p.major p.minor) hs hc j hj
      rw [← h, h1] at h2
      simp only [ho, hj, if_true] at h2
      have hmem : other.getD j 0 ∈ bcryptAlphabet := by
        rw [List.getD_eq_getElem _ _ (by omega)]
        exact hz _ (List.getElem_mem _)
      have hne : other.getD j 0 ≠ 0 := by
        intro h0
        rw [h0] at hmem
        exact absurd hmem (by decide)
      by_cases hjl : j < p.hash.length
      · rw [if_pos hjl] at h2
        exact ⟨hjl, h2⟩
      · rw [if_neg hjl] at h2
        exact absurd h2.symm hne
    have hlen : 31 ≤ p.hash.length := by
      have := (key 30 (by omega)).1
      omega
    refine ext_getD _ _ (by rw [List.length_take, ho]; omega) fun i hi => ?_
    rw [List.length_take] at hi
    rw [getD_take_lt _ _ _ (by omega)]
    exact (key i (by omega)).2
  · intro h
    rw [← h]
    exact hash_take p

/-! ## The parser `newFromHash` -/

theorem getElem?_eq_some_getD (l : List Nat) (i : Nat) (h : i < l.length) :
    l[i]? = some (l.getD i 0) := by
  rw [List.getD_eq_getElem _ _ h, List.getElem?_eq_getElem h]

theorem versionLength_le (h : GoString) : 3 ≤ versionLength h ∧ versionLength h ≤ 4 := by
  unfold versionLength
  split_ifs <;> omega

theorem decodeVersion_eq (h : GoString) (hl : 3 ≤ h.length) :
    decodeVersion h =
      if h.getD 0 0 ≠ 0x24 then
        some (Except.error (BcryptError.invalidHashPrefix (h.getD 0 0)))
      else if 0x32 < h.getD 1 0 then
        some (Except.error (BcryptError.hashVersionTooNew (h.getD 1 0)))
      else some (Except.ok (versionLength h, h.getD 1 0,
        if h.getD 2 0 ≠ 0x24 then h.getD 2 0 else 0)) := by
  unfold decodeVersion versionLength
  rw [getElem?_eq_some_getD h 0 (by omega), getElem?_eq_some_getD h 1 (by omega),
    getElem?_eq_some_getD h 2 (by omega)]
  dsimp only
  split_ifs <;> rfl

theorem decodeCost_cases (t : GoString) (ht : 2 ≤ t.length) :
    (Atoi (t.take 2) = none ∧ decodeCost t = some (Except.error BcryptError.costSyntax)) ∨
    (∃ c, Atoi (t.take 2) = some c ∧ (c < 4 ∨ 31 < c) ∧
      decodeCost t = some (Except.error (BcryptError.invalidCost c))) ∨
    (∃ c, Atoi (t.take 2) = some c ∧ 4 ≤ c ∧ c ≤ 31 ∧
      decodeCost t = some (Except.ok (3, c.toNat))) := by
  unfold decodeCost sliceTo
  simp only [ht, if_true]
  cases h : Atoi (t.take 2) with
  | none => exact Or.inl ⟨rfl, rfl⟩
  | some c =>
    by_cases hc : c < 4 ∨ 31 < c
    · exact Or.inr (Or.inl ⟨c, rfl, hc, by simp only [hc, if_true]⟩)
    · refine Or.inr (Or.inr ⟨c, rfl, by omega, by omega, by simp only [hc, if_false]⟩)

/-- What `newFromHash` returns: never a panic; an error on a hash shorter than
59 bytes, on a first byte other than `$`, on a version byte above `2` and on a
cost that `strconv.Atoi` does not read as a number from 4 to 31; otherwise the
parts of the hash. -/
theorem newFromHash_cases (h : GoString) :
    (∃ e, newFromHash h = some (Except.error e) ∧
      (h.length < 59 ∨ h.getD 0 0 ≠ 0x24 ∨ 0x32 < h.getD 1 0 ∨
        ∀ c, Atoi (costField h) = some c → c < 4 ∨ 31 < c)) ∨
    (∃ p, newFromHash h = some (Except.ok p) ∧ 59 ≤ h.length ∧ h.getD 0 0 = 0x24 ∧
      h.getD 1 0 ≤ 0x32 ∧ (∃ c, Atoi (costField h) = some c ∧ 4 ≤ c ∧ c ≤ 31 ∧
        p.cost = c.toNat) ∧ p.salt.length = 22 ∧ p.salt = saltPart h ∧
      p.hash = hashPart h) := by
  by_cases hlen : h.length < 59
  · exact Or.inl ⟨BcryptError.hashTooShort, by simp [newFromHash, hlen], Or.inl hlen⟩
  have hv := decodeVersion_eq h (by omega)
  have hvl := versionLength_le h
  by_cases hb0 : h.getD 0 0 ≠ 0x24
  · rw [if_pos hb0] at hv
    refine Or.inl ⟨BcryptError.invalidHashPrefix (h.getD 0 0), ?_, Or.inr (Or.inl hb0)⟩
    unfold newFromHash
    rw [if_neg hlen, hv]
  rw [if_neg hb0] at hv
  by_cases hb1 : 0x32 < h.getD 1 0
  · rw [if_pos hb1] at hv
    refine Or.inl ⟨BcryptError.hashVersionTooNew (h.getD 1 0), ?_,
      Or.inr (Or.inr (Or.inl hb1))⟩
    unfold newFromHash
    rw [if_neg hlen, hv]
  rw [if_neg hb1] at hv
  have hs1 : sliceFrom h (versionLength h) = some (h.drop (versionLength h)) := by
    unfold sliceFrom
    rw [if_pos (by omega)]
  have hdl : (h.drop (versionLength h)).length = h.length - versionLength h :=
    List.length_drop _ _
  have hstart : newFromHash h =
      match decodeCost (h.drop (versionLength h)) with
      | none => none
      | some (Except.error e) => some (Except.error e)
      | some (Except.ok (n2, cost)) =>
        match sliceFrom (h.drop (versionLength h)) n2 with
        | none => none
        | some afterCost =>
          match sliceTo afterCost 22, sliceFrom afterCost 22 with
          | some salt, some hash =>
            some (Except.ok { hash := hash, salt := salt, cost := cost,
                              major := h.getD 1 0,
                              minor := if h.getD 2 0 ≠ 0x24 then h.getD 2 0 else 0 })
          | _, _ => none := by
    unfold newFromHash
    rw [if_neg hlen, hv]
    dsimp only
    rw [hs1]
  rcases decodeCost_cases (h.drop (versionLength h)) (by omega) with
    ⟨ha, hd⟩ | ⟨c, ha, hc, hd⟩ | ⟨c, ha, hc1, hc2, hd⟩
  · refine Or.inl ⟨BcryptError.costSyntax, by rw [hstart, hd],
      Or.inr (Or.inr (Or.inr ?_))⟩
    intro c hc
    unfold costField at hc
    rw [ha] at hc
    exact absurd hc (by simp)
  · refine Or.inl ⟨BcryptError.invalidCost c, by rw [hstart, hd],
      Or.inr (Or.inr (Or.inr ?_))⟩
    intro c' hc'
    unfold costField at hc'
    rw [ha] at hc'
    simp only [Option.some.injEq] at hc'
    rw [← hc']
    exact hc
  · right
    have hs2 : sliceFrom (h.drop (versionLength h)) 3 =
        some ((h.drop (versionLength h)).drop 3) := by
      unfold sliceFrom
      rw [if_pos (by omega)]
    have hdl2 : ((h.drop (versionLength h)).drop 3).length = h.length - versionLength h - 3 := by
      rw [List.length_drop, hdl]
    have hs3 : sliceTo ((h.drop (versionLength h)).drop 3) 22 =
        some (((h.drop (versionLength h)).drop 3).take 22) := by
      unfold sliceTo
      rw [if_pos (by omega)]
    have hs4 : sliceFrom ((h.drop (versionLength h)).drop 3) 22 =
        some (((h.drop (versionLength h)).drop 3).drop 22) := by
      unfold sliceFrom
      rw [if_pos (by omega)]
    refine ⟨_, by rw [hstart, hd]; dsimp only; rw [hs2]; dsimp only; rw [hs3, hs4],
      by omega, by simpa using hb0, by omega, ⟨c, ha, hc1, hc2, rfl⟩, ?_, ?_, ?_⟩
    · dsimp only
      rw [List.length_take, hdl2]
      omega
    · dsimp only
      unfold saltPart
      rw [List.drop_drop]
    · dsimp only
      unfold hashPart
      rw [List.drop_drop, List.drop_drop]


/-- The cost fields that `decodeCost` accepts: `strconv.Atoi` reads two bytes
as a number from 4 to 31 exactly when they are two decimal digits, or `+` and
one decimal digit, with such a value. -/
theorem atoi_cost_iff (f : GoString) (hf : f.length = 2) (c : Nat) :
    (∃ ci : Int, Atoi f = some ci ∧ 4 ≤ ci ∧ ci ≤ 31 ∧ ci.toNat = c) ↔ IsCostField f c := by
  match f, hf with
  | [a, b], _ =>
    unfold IsCostField
    constructor
    · rintro ⟨ci, h, h1, h2, h3⟩
      simp only [Atoi] at h
      by_cases hs : a = 0x2D ∨ a = 0x2B
      · rw [if_pos hs] at h
        simp only [List.length_singleton, Nat.lt_irrefl, if_false, atoiDigits] at h
        by_cases hb : b < 0x30 ∨ 0x39 < b
        · simp only [hb, if_true] at h
          exact absurd h (by simp)
        · simp only [hb, if_false] at h
          by_cases hm : a = 0x2D
          · simp only [hm, if_true, Option.some.injEq] at h
            omega
          · simp only [hm, if_false, Option.some.injEq] at h
            have ha : a = 0x2B := by tauto
            refine ⟨by omega, by omega, Or.inr ⟨b - 0x30, by omega, ?_, by omega⟩⟩
            rw [ha, show 0x30 + (b - 0x30) = b by omega]
      · rw [if_neg hs] at h
        simp only [atoiDigits] at h
        by_cases ha : a < 0x30 ∨ 0x39 < a
        · simp only [ha, if_true] at h
          exact absurd h (by simp)
        · simp only [ha, if_false] at h
          by_cases hb : b < 0x30 ∨ 0x39 < b
          · simp only [hb, if_true] at h
            exact absurd h (by simp)
          · simp only [hb, if_false, Option.some.injEq] at h
            refine ⟨by omega, by omega, Or.inl ⟨a - 0x30, b - 0x30, by omega, by omega, ?_,
              by omega⟩⟩
            rw [show 0x30 + (a - 0x30) = a by omega, show 0x30 + (b - 0x30) = b by omega]
    · rintro ⟨h1, h2, ⟨d1, d2, hd1, hd2, hfe, hc⟩ | ⟨d, hd, hfe, hc⟩⟩
      · simp only [List.cons.injEq, and_true] at hfe
        obtain ⟨rfl, rfl⟩ := hfe
        refine ⟨(c : Int), ?_, by omega, by omega, by simp⟩
        simp only [Atoi]
        rw [if_neg (by omega)]
        simp only [atoiDigits]
        rw [if_neg (by omega), if_neg (by omega)]
        simp only [Option.some.injEq]
        omega
      · simp only [List.cons.injEq, and_true] at hfe
        obtain ⟨rfl, rfl⟩ := hfe
        refine ⟨(c : Int), ?_, by omega, by omega, by simp⟩
        simp only [Atoi]
        rw [if_pos (Or.inr trivial)]
        simp only [List.length_singleton, Nat.lt_irrefl, if_false, atoiDigits]
        rw [if_neg (by omega)]
        simp only [Nat.reduceEqDiff, if_false, Option.some.injEq]
        omega

theorem costField_length (h : GoString) (hl : 59 ≤ h.length) : (costField h).length = 2 := by
  unfold costField
  have := versionLength_le h
  rw [List.length_take, List.length_drop]
  omega

/-! ## Properties of `correctPassword` -/

theorem correctPassword_of_error (cipher : GoString → Nat → GoString → Option (List Nat))
    (pw hash : GoString) (e : BcryptError) (h : newFromHash hash = some (Except.error e)) :
    correctPassword cipher pw hash = some false := by
  unfold correctPassword CompareHashAndPassword
  rw [h]
  rfl

theorem correctPassword_of_ok (cipher : GoString → Nat → GoString → Option (List Nat))
    (pw hash : GoString) (p : Hashed) (h : newFromHash hash = some (Except.ok p)) :
    (correctPassword cipher pw hash = some true ∨ correctPassword cipher pw hash = some false) ∧
      (correctPassword cipher pw hash = some true ↔ ∃ data,
        cipher pw p.cost p.salt = some data ∧
        p.Hash = Hashed.Hash (Hashed.mk (base64Encode ((cipherData data).take 23)) p.salt
          p.cost p.major p.minor)) := by
  unfold correctPassword CompareHashAndPassword bcrypt
  rw [h]
  dsimp only
  cases hcip : cipher pw p.cost p.salt with
  | none =>
    refine ⟨Or.inr rfl, ?_⟩
    constructor
    · intro h1
      exact absurd h1 (by simp)
    · rintro ⟨data, h1, -⟩
      exact absurd h1 (by simp)
  | some data =>
    dsimp only
    by_cases hcmp : ConstantTimeCompare p.Hash
        (Hashed.Hash (Hashed.mk (base64Encode ((cipherData data).take 23)) p.salt
          p.cost p.major p.minor)) = 1
    · rw [if_pos hcmp]
      refine ⟨Or.inl rfl, fun _ => ⟨data, rfl, ?_⟩, fun _ => rfl⟩
      unfold ConstantTimeCompare at hcmp
      split_ifs at hcmp with h1 h2
      · exact h2
    · rw [if_neg hcmp]
      refine ⟨Or.inr rfl, ?_⟩
      constructor
      · intro h1
        exact absurd h1 (by simp)
      · rintro ⟨data', h1, h2⟩
        simp only [Option.some.injEq] at h1
        subst h1
        exfalso
        apply hcmp
        unfold ConstantTimeCompare
        rw [← h2, if_neg (by simp), if_pos rfl]

/-- The result of `correctPassword` is never a panic. -/
theorem correctPassword_total (cipher : GoString → Nat → GoString → Option (List Nat))
    (pw hash : GoString) :
    correctPassword cipher pw hash = some true ∨ correctPassword cipher pw hash = some false := by
  rcases newFromHash_cases hash with ⟨e, he, -⟩ | ⟨p, hp, -⟩
  · exact Or.inr (correctPassword_of_error cipher pw hash e he)
  · exact (correctPassword_of_ok cipher pw hash p hp).1

/-- When `correctPassword` returns true: the hash has at least 59 bytes, begins
with `$` and a version byte up to `2`, its cost characters give a cost from 4
to 31, and its first 31 bytes after the salt are the encoding of what the
cipher gives for the secret, this cost and the salt. -/
theorem correctPassword_iff (cipher : GoString → Nat → GoString → Option (List Nat))
    (pw hash : GoString) :
    correctPassword cipher pw hash = some true ↔
      59 ≤ hash.length ∧ hash.getD 0 0 = 0x24 ∧ hash.getD 1 0 ≤ 0x32 ∧
        ∃ c, IsCostField (costField hash) c ∧ ∃ data,
          cipher pw c (saltPart hash) = some data ∧
          (hashPart hash).take 31 = base64Encode ((cipherData data).take 23) := by
  rcases newFromHash_cases hash with
    ⟨e, he, hbad⟩ | ⟨p, hp, h1, h2, h3, ⟨c, hc1, hc2, hc3, hc4⟩, h5, h6, h7⟩
  · rw [correctPassword_of_error cipher pw hash e he]
    constructor
    · intro h
      exact absurd h (by simp)
    · rintro ⟨h1, h2, h3, c, hc, -⟩
      exfalso
      obtain ⟨ci, hci, hci1, hci2, -⟩ :=
        (atoi_cost_iff (costField hash) (costField_length hash h1) c).2 hc
      rcases hbad with hb | hb | hb | hb
      · omega
      · exact hb h2
      · omega
      · have := hb ci hci
        omega
  · have hcost : (sprintf02d p.cost).length = 2 := by
      rw [hc4]
      exact sprintf02d_length _ (by omega) (by omega)
    have hfield : IsCostField (costField hash) p.cost :=
      (atoi_cost_iff (costField hash) (costField_length hash h1) p.cost).1
        ⟨c, hc1, hc2, hc3, hc4.symm⟩
    have huniq : ∀ c', IsCostField (costField hash) c' → c' = p.cost := by
      intro c' hc'
      obtain ⟨ci, hci, -, -, hci3⟩ :=
        (atoi_cost_iff (costField hash) (costField_length hash h1) c').2 hc'
      rw [hc1] at hci
      simp only [Option.some.injEq] at hci
      rw [← hci3, ← hci, hc4]
    have hiff : ∀ data, (p.Hash = Hashed.Hash (Hashed.mk
        (base64Encode ((cipherData data).take 23)) p.salt p.cost p.major p.minor) ↔
        (hashPart hash).take 31 = base64Encode ((cipherData data).take 23)) := by
      intro data
      have hb := base64Encode_23 _ (cipherData_length data)
      rw [← h7]
      exact hash_eq_iff p _ h5 hcost hb.1 hb.2
    rw [(correctPassword_of_ok cipher pw hash p hp).2]
    constructor
    · rintro ⟨data, hd1, hd2⟩
      exact ⟨h1, h2, h3, p.cost, hfield, data, by rw [← h6]; exact hd1, (hiff data).1 hd2⟩
    · rintro ⟨-, -, -, c', hc', data, hd1, hd2⟩
      rw [huniq c' hc', ← h6] at hd1
      exact ⟨data, hd1, (hiff data).2 hd2⟩

/-- Two hashes of at least 59 bytes with the same first two bytes, the same
cost characters, the same salt and the same first 31 bytes after the salt get
the same result. -/
theorem correctPassword_same_parts (cipher : GoString → Nat → GoString → Option (List Nat))
    (pw h h' : GoString) (hl : 59 ≤ h.length) (hl' : 59 ≤ h'.length)
    (h0 : h'.getD 0 0 = h.getD 0 0) (h1 : h'.getD 1 0 = h.getD 1 0)
    (hc : costField h' = costField h) (hs : saltPart h' = saltPart h)
    (hh : (hashPart h').take 31 = (hashPart h).take 31) :
    correctPassword cipher pw h' = correctPassword cipher pw h := by
  have e : correctPassword cipher pw h' = some true ↔ correctPassword cipher pw h = some true := by
    rw [correctPassword_iff, correctPassword_iff, h0, h1, hc, hs, hh]
    constructor
    · rintro ⟨-, r⟩
      exact ⟨hl, r⟩
    · rintro ⟨-, r⟩
      exact ⟨hl', r⟩
  rcases correctPassword_total cipher pw h with t | f
  · rw [t, e.2 t]
  · rcases correctPassword_total cipher pw h' with t' | f'
    · rw [e.1 t'] at f
      exact absurd f (by simp)
    · rw [f, f']

/-- A hash that `correctPassword` rejects for every secret: one shorter than 59
bytes, not beginning with `$`, with a version byte above `2`, with cost
characters that give no cost from 4 to 31, with fewer than 31 bytes after the
salt, or with one of these 31 bytes outside the alphabet. -/
theorem correctPassword_rejects (cipher : GoString → Nat → GoString → Option (List Nat))
    (pw hash : GoString)
    (hbad : hash.length < 59 ∨ hash.getD 0 0 ≠ 0x24 ∨ 0x32 < hash.getD 1 0 ∨
      (∀ c, ¬ IsCostField (costField hash) c) ∨ (hashPart hash).length < 31 ∨
      ∃ j < 31, (hashPart hash).getD j 0 ∉ bcryptAlphabet) :
    correctPassword cipher pw hash = some false := by
  rcases correctPassword_total cipher pw hash with t | f
  · exfalso
    obtain ⟨h1, h2, h3, c, hc, data, -, hd⟩ := (correctPassword_iff cipher pw hash).1 t
    have hb := base64Encode_23 _ (cipherData_length data)
    have hlen : ((hashPart hash).take 31).length = 31 := by rw [hd]; exact hb.1
    rw [List.length_take] at hlen
    rcases hbad with hb' | hb' | hb' | hb' | hb' | ⟨j, hj, hb'⟩
    · omega
    · exact hb' h2
    · omega
    · exact hb' c hc
    · omega
    · apply hb'
      rw [← getD_take_lt _ 31 _ hj, hd, List.getD_eq_getElem _ _ (by omega)]
      exact hb.2 _ (List.getElem_mem _)
  · exact f

/-- The four cases of `TestCorrectPassword`, with the cipher at the value the
first case determines: the results are those the test expects. -/
theorem testCorrectPassword_cases :
    correctPassword testVectorCipher (str "PUrNTjU24JYNEOCeS2JcjaJGv1sinT80oV9--dpX")
      (str "$2a$10$ldVoGU5yrdlbPzuPUbUfleVovGjaRelP9tql0IltVUJk778gf.2tu") = some true ∧
    correctPassword testVectorCipher (str "PUrNTjU24JYNEOCeS2JcjaJGv1sinT80oV9--dpX")
      (str "$2a$10$ldVoGU5yrdlbPzuPUbUfleVovGjaRelP9tql0IltVUJk778gf.2t") = some false ∧
    correctPassword testVectorCipher (str "PUrNTjU24JYNEOCeS2JcjaJGv1sinT80oV9--dp")
      (str "$2a$10$ldVoGU5yrdlbPzuPUbUfleVovGjaRelP9tql0IltVUJk778gf.2tu") = some false ∧
    correctPassword testVectorCipher [] [] = some false := by
  decide

/-! ## Claim C13 -/

/-- C13, as stated, fails. Two hashes that are not well-formed bcrypt encodings,
the hash stored in the first case of `TestCorrectPassword` with its two inner
`$` separators replaced by `X` and `Y`, and the same stored hash followed by
seven more bytes, get for every cipher and every secret the result of the
stored hash itself. So whenever the password of that case verifies against the
stored hash, as the test requires, `correctPassword` returns true for it
against both malformed hashes; and the cipher can be such that it verifies. -/
theorem correctPassword_accepts_malformed :
    (¬ IsBcryptEncoding (str "$2aX10YldVoGU5yrdlbPzuPUbUfleVovGjaRelP9tql0IltVUJk778gf.2tu") ∧
      ¬ IsBcryptEncoding
        (str "$2a$10$ldVoGU5yrdlbPzuPUbUfleVovGjaRelP9tql0IltVUJk778gf.2tuGARBAGE")) ∧
    (∀ cipher : GoString → Nat → GoString → Option (List Nat),
      correctPassword cipher (str "PUrNTjU24JYNEOCeS2JcjaJGv1sinT80oV9--dpX")
        (str "$2a$10$ldVoGU5yrdlbPzuPUbUfleVovGjaRelP9tql0IltVUJk778gf.2tu") = some true →
      correctPassword cipher (str "PUrNTjU24JYNEOCeS2JcjaJGv1sinT80oV9--dpX")
        (str "$2aX10YldVoGU5yrdlbPzuPUbUfleVovGjaRelP9tql0IltVUJk778gf.2tu") = some true ∧
      correctPassword cipher (str "PUrNTjU24JYNEOCeS2JcjaJGv1sinT80oV9--dpX")
        (str "$2a$10$ldVoGU5yrdlbPzuPUbUfleVovGjaRelP9tql0IltVUJk778gf.2tuGARBAGE") =
          some true) ∧
    ∃ cipher : GoString → Nat → GoString → Option (List Nat),
      correctPassword cipher (str "PUrNTjU24JYNEOCeS2JcjaJGv1sinT80oV9--dpX")
        (str "$2a$10$ldVoGU5yrdlbPzuPUbUfleVovGjaRelP9tql0IltVUJk778gf.2tu") = some true := by
  refine ⟨⟨?_, ?_⟩, ?_, ⟨testVectorCipher, by decide⟩⟩
  · intro h
    exact absurd h.2.2.1 (by decide)
  · intro h
    exact absurd h.2.2.2.2.2.2.1 (by decide)
  · intro cipher h
    constructor
    · rw [correctPassword_same_parts cipher _
        (str "$2a$10$ldVoGU5yrdlbPzuPUbUfleVovGjaRelP9tql0IltVUJk778gf.2tu")
        (str "$2aX10YldVoGU5yrdlbPzuPUbUfleVovGjaRelP9tql0IltVUJk778gf.2tu")
        (by decide) (by decide) (by decide) (by decide) (by decide) (by decide) (by decide)]
      exact h
    · rw [correctPassword_same_parts cipher _
        (str "$2a$10$ldVoGU5yrdlbPzuPUbUfleVovGjaRelP9tql0IltVUJk778gf.2tu")
        (str "$2a$10$ldVoGU5yrdlbPzuPUbUfleVovGjaRelP9tql0IltVUJk778gf.2tuGARBAGE")
        (by decide) (by decide) (by decide) (by decide) (by decide) (by decide) (by decide)]
      exact h

/-- C13, amended. For every secret and every hash `correctPassword` returns
true or false, never a panic or an error. It returns true exactly when the hash
has at least 59 bytes, begins with `$` and a version byte up to `2`, has as its
two cost characters two decimal digits, or `+` and one digit, of a value `c`
from 4 to 31, and has as its first 31 bytes after the salt the encoding of what
the cipher gives for the secret, `c` and the salt. So it returns false for
each hash shorter than 59 bytes, not beginning with `$`, with a version byte
above `2`, with other cost characters, with fewer than 31 bytes after the salt
or with one of these 31 bytes outside the alphabet; `correctPassword("", "")`
is false; and two hashes of at least 59 bytes with the same first two bytes,
the same cost characters, the same salt and the same first 31 bytes after the
salt, each part taken where the version of its own hash puts it, get the same
result. -/
theorem correctPassword_malformed (cipher : GoString → Nat → GoString → Option (List Nat))
    (pw hash : GoString) :
    (correctPassword cipher pw hash = some true ∨
      correctPassword cipher pw hash = some false) ∧
    (correctPassword cipher pw hash = some true ↔
      59 ≤ hash.length ∧ hash.getD 0 0 = 0x24 ∧ hash.getD 1 0 ≤ 0x32 ∧
        ∃ c, IsCostField (costField hash) c ∧ ∃ data,
          cipher pw c (saltPart hash) = some data ∧
          (hashPart hash).take 31 = base64Encode ((cipherData data).take 23)) ∧
    (hash.length < 59 ∨ hash.getD 0 0 ≠ 0x24 ∨ 0x32 < hash.getD 1 0 ∨
        (∀ c, ¬ IsCostField (costField hash) c) ∨ (hashPart hash).length < 31 ∨
        (∃ j < 31, (hashPart hash).getD j 0 ∉ bcryptAlphabet) →
      correctPassword cipher pw hash = some false) ∧
    correctPassword cipher [] [] = some false ∧
    ∀ hash' : GoString, 59 ≤ hash.length → 59 ≤ hash'.length →
      hash'.getD 0 0 = hash.getD 0 0 → hash'.getD 1 0 = hash.getD 1 0 →
      costField hash' = costField hash → saltPart hash' = saltPart hash →
      (hashPart hash').take 31 = (hashPart hash).take 31 →
      correctPassword cipher pw hash' = correctPassword cipher pw hash :=
  ⟨correctPassword_total cipher pw hash, correctPassword_iff cipher pw hash,
    correctPassword_rejects cipher pw hash, rfl,
    fun hash' hl hl' h0 h1 hc hs hh =>
      correctPassword_same_parts cipher pw hash hash' hl hl' h0 h1 hc hs hh⟩

/-- C13, amended, at the inputs of the test suite: the truncated hash of its
second case, whose 30 bytes after the salt are fewer than 31, is rejected; and
the stored hash of its first case with the byte after the version and the byte
after the cost replaced gets the result of the stored hash. -/
theorem correctPassword_malformed_witness :
    correctPassword testVectorCipher (str "PUrNTjU24JYNEOCeS2JcjaJGv1sinT80oV9--dpX")
      (str "$2a$10$ldVoGU5yrdlbPzuPUbUfleVovGjaRelP9tql0IltVUJk778gf.2t") = some false ∧
    correctPassword testVectorCipher (str "PUrNTjU24JYNEOCeS2JcjaJGv1sinT80oV9--dpX")
        (str "$2aX10YldVoGU5yrdlbPzuPUbUfleVovGjaRelP9tql0IltVUJk778gf.2tu") =
      correctPassword testVectorCipher (str "PUrNTjU24JYNEOCeS2JcjaJGv1sinT80oV9--dpX")
        (str "$2a$10$ldVoGU5yrdlbPzuPUbUfleVovGjaRelP9tql0IltVUJk778gf.2tu") :=
  ⟨(correctPassword_malformed testVectorCipher _ _).2.2.1
      (Or.inr (Or.inr (Or.inr (Or.inr (Or.inl (by decide)))))),
    (correctPassword_malformed testVectorCipher _ _).2.2.2.2 _
      (by decide) (by decide) (by decide) (by decide) (by decide) (by decide) (by decide)⟩

end AcmeDns
